import Mathlib

/-!
Verification of `conventional_commits/compile_release_notes.py`
(`ReleaseNoteCompiler`): a shallow embedding of the module's pure text
pipeline — commit-log parsing, stop-point detection, categorisation,
rendering and merge-into-previous-notes — together with proofs about it.

Python strings are modelled as `List Char`; Python `str` methods used by
the module (`split`, `splitlines`, `join`, `strip`, `in`, `upper`) are
modelled by executable functions below.  Collaborator I/O (the git-log
query and the GitHub API call) is modelled by passing the corresponding
strings in as explicit inputs, and a raised `ValueError`/`KeyError` by an
`Option`/`none` result.
-/

namespace ReleaseNotes

/-- The characters of a Lean string literal, as the model of a Python string. -/
def chars (s : String) : List Char := s.toList

/-- Python `sub in s` (substring containment). -/
def pyIn (sub : List Char) : List Char → Bool
  | [] => sub.isEmpty
  | c :: t => sub.isPrefixOf (c :: t) || pyIn sub t

/-- Split off the first occurrence of `sep`: returns `some (p, q)` with
`s = p ++ sep ++ q` at the leftmost occurrence, `none` if `sep` does not
occur in `s` (for nonempty `sep`). -/
def firstSplit (sep : List Char) : List Char → Option (List Char × List Char)
  | [] => if sep.isPrefixOf [] then some ([], []) else none
  | c :: t =>
    if sep.isPrefixOf (c :: t) then some ([], (c :: t).drop sep.length)
    else (firstSplit sep t).map (fun pq => (c :: pq.1, pq.2))

/-- Fuel-driven worker for `pySplit` (fuel makes it structurally recursive,
hence kernel-evaluable; `pySplit` supplies sufficient fuel). -/
def pySplitF (sep : List Char) : Nat → List Char → List (List Char)
  | 0, s => [s]
  | fuel + 1, s =>
    match firstSplit sep s with
    | none => [s]
    | some (p, q) => p :: pySplitF sep fuel q

/-- Python `s.split(sep)` for a nonempty separator: greedy left-to-right
splitting on occurrences of `sep`.  (Python raises on an empty separator;
the module only ever splits on nonempty separators.) -/
def pySplit (sep s : List Char) : List (List Char) := pySplitF sep s.length s

/-- Python `sep.join(xs)`. -/
def pyJoin (sep : List Char) : List (List Char) → List Char
  | [] => []
  | [x] => x
  | x :: y :: t => x ++ sep ++ pyJoin sep (y :: t)

/-- Worker for `pySplitlines`; `acc` is the current line, reversed. -/
def splitlinesGo (acc : List Char) : List Char → List (List Char)
  | [] => [acc.reverse]
  | '\r' :: '\n' :: rest =>
    acc.reverse :: (match rest with | [] => [] | r :: rs => splitlinesGo [] (r :: rs))
  | c :: rest =>
    if c = '\n' ∨ c = '\r' then
      acc.reverse :: (match rest with | [] => [] | r :: rs => splitlinesGo [] (r :: rs))
    else splitlinesGo (c :: acc) rest

/-- Python `s.splitlines()` restricted to the terminators `\n`, `\r\n`, `\r`
(the only ones that can appear in a git log; the exotic unicode
terminators Python also recognises are out of scope). -/
def pySplitlines (s : List Char) : List (List Char) :=
  match s with
  | [] => []
  | c :: t => splitlinesGo [] (c :: t)

/-- Strip all leading characters belonging to `cs`. -/
def stripLeft (cs s : List Char) : List Char := s.dropWhile (fun c => cs.contains c)

/-- Strip all trailing characters belonging to `cs`. -/
def stripRight (cs s : List Char) : List Char := (stripLeft cs s.reverse).reverse

/-- Python `s.strip(cs)`: strip characters of `cs` from both ends. -/
def stripBoth (cs s : List Char) : List Char := stripRight cs (stripLeft cs s)

/-- The whitespace characters stripped by Python `str.strip()`. -/
def wsChars : List Char := [' ', '\t', '\n', '\r', '\x0b', '\x0c']

/-- Python `s.strip()` (no argument: whitespace). -/
def pyStripWS (s : List Char) : List Char := stripBoth wsChars s

/-! ## The embedded program: module-level constants -/

/-- Python `s.upper()` (ASCII; stop points are ASCII strings). -/
def pyUpper (s : List Char) : List Char := s.map Char.toUpper

/-- `LAST_RELEASE = "LAST_RELEASE"`. -/
def LAST_RELEASE : List Char := chars "LAST_RELEASE"

/-- `LAST_PULL_REQUEST = "LAST_PULL_REQUEST"`. -/
def LAST_PULL_REQUEST : List Char := chars "LAST_PULL_REQUEST"

/-- `PULL_REQUEST_INDICATOR = "Merge pull request #"`. -/
def PULL_REQUEST_INDICATOR : List Char := chars "Merge pull request #"

/-- `AUTO_GENERATION_START_INDICATOR`. -/
def sSTART : List Char := chars "<!--- START AUTOGENERATED NOTES --->"

/-- `AUTO_GENERATION_END_INDICATOR`. -/
def sEND : List Char := chars "<!--- END AUTOGENERATED NOTES --->"

/-- `SKIP_INDICATOR`. -/
def sSKIP : List Char := chars "<!--- SKIP AUTOGENERATED NOTES --->"

/-- The heading receiving commits with unrecognised codes. -/
def sOTHER : List Char := chars "### Other"

/-- The heading receiving unparsed commit headers. -/
def sUNCAT : List Char := chars "### Uncategorised!"

/-- `COMMIT_CODES_TO_HEADINGS_MAPPING`, an insertion-ordered dict modelled as
an association list. -/
def COMMIT_CODES_TO_HEADINGS_MAPPING : List (List Char × List Char) :=
  [ (chars "FEA", chars "### New features"),
    (chars "ENH", chars "### Enhancements"),
    (chars "FIX", chars "### Fixes"),
    (chars "OPS", chars "### Operations"),
    (chars "DEP", chars "### Dependencies"),
    (chars "REF", chars "### Refactoring"),
    (chars "TST", chars "### Testing"),
    (chars "MRG", chars "### Other"),
    (chars "REV", chars "### Reversions"),
    (chars "CHO", chars "### Chores"),
    (chars "WIP", chars "### Other"),
    (chars "DOC", chars "### Other"),
    (chars "STY", chars "### Other") ]

/-! ## `SEMANTIC_VERSION_PATTERN = re.compile(r"tag: (\d+\.\d+\.\d+)")`

`re.search` of this pattern: the string contains, at some position, the
literal `"tag: "` followed by one-or-more digits, a dot, one-or-more
digits, a dot, one-or-more digits.  (`\d+` is greedy, and since a digit can
never match the following `\.`, greedy matching is equivalent to the
backtracking search; Python's `\d` also covers unicode digits, irrelevant
for git decorations.) -/

/-- Consume one-or-more digits from the front; `some rest` on success. -/
def parseDigits1 : List Char → Option (List Char)
  | [] => none
  | c :: rest => if c.isDigit then some (rest.dropWhile Char.isDigit) else none

/-- Consume a literal dot from the front. -/
def expectDot : List Char → Option (List Char)
  | [] => none
  | d :: r => if d = '.' then some r else none

/-- Match `\d+\.\d+\.\d+` at the front of `s`: digits, dot, digits, dot,
digits, in sequence. -/
def semverAfterTag (s : List Char) : Bool :=
  (((((parseDigits1 s).bind expectDot).bind parseDigits1).bind
    expectDot).bind parseDigits1).isSome

/-- Match the whole pattern `tag: \d+\.\d+\.\d+` at the front of `s`. -/
def matchesSemverAt (s : List Char) : Bool :=
  (chars "tag: ").isPrefixOf s && semverAfterTag (s.drop 5)

/-- `SEMANTIC_VERSION_PATTERN.search(s)` converted to bool: does the pattern
match at some position of `s`? -/
def semverSearch : List Char → Bool
  | [] => false
  | c :: rest => matchesSemverAt (c :: rest) || semverSearch rest

/-! ## The `ReleaseNoteCompiler` class -/

/-- The state of a constructed `ReleaseNoteCompiler`.  `previous_notes` is
the (optional) pull-request description; the GitHub fetch that produces it
is a collaborator, so the text is taken as an explicit input. -/
structure ReleaseNoteCompiler where
  stop_point : List Char
  previous_notes : Option (List Char)
  header : List Char
  list_item_symbol : List Char
  commit_codes_to_headings_mapping : List (List Char × List Char)

/-- The `commit_codes_to_headings_mapping or COMMIT_CODES_TO_HEADINGS_MAPPING`
default in `__init__`: `none` models Python `None`, `some []` an empty dict;
both are falsy, so both fall back to the module default. -/
def pyOrMapping : Option (List (List Char × List Char)) → List (List Char × List Char)
  | none => COMMIT_CODES_TO_HEADINGS_MAPPING
  | some m => if m.isEmpty then COMMIT_CODES_TO_HEADINGS_MAPPING else m

/-- `ReleaseNoteCompiler.__init__`: validates the stop point (raising
`ValueError`, modelled as `none`, unless its uppercase form is one of the
two allowed values), stores its uppercase form, and applies the mapping
default. -/
def initCompiler (stop_point : List Char) (previous_notes : Option (List Char))
    (header list_item_symbol : List Char)
    (mapping : Option (List (List Char × List Char))) : Option ReleaseNoteCompiler :=
  if pyUpper stop_point ≠ LAST_RELEASE ∧ pyUpper stop_point ≠ LAST_PULL_REQUEST then
    none
  else
    some { stop_point := pyUpper stop_point
           previous_notes := previous_notes
           header := header
           list_item_symbol := list_item_symbol
           commit_codes_to_headings_mapping := pyOrMapping mapping }

/-- `ReleaseNoteCompiler._is_stop_point`.  The Python body is two guarded
early returns; with the first guard's early return inlined this is the
exact branch structure (a fallthrough returns `None`, i.e. falsy). -/
def isStopPoint (c : ReleaseNoteCompiler) (message decoration : List Char) : Bool :=
  if c.stop_point = LAST_RELEASE && pyIn (chars "tag") decoration then
    semverSearch decoration
  else if c.stop_point = LAST_PULL_REQUEST then
    pyIn PULL_REQUEST_INDICATOR message
  else
    false

/-- A parsed commit: `(code, message, decoration)`. -/
abbrev Commit := List Char × List Char × List Char

/-- The loop body of `ReleaseNoteCompiler._parse_commit_messages`, over the
list of log lines.  Lines that do not split into exactly two parts on `"|"`
are dropped; reaching the stop point discards the rest of the log. -/
def parseLines (c : ReleaseNoteCompiler) : List (List Char) → List Commit × List (List Char)
  | [] => ([], [])
  | line :: rest =>
    match pySplit (chars "|") line with
    | [message, decoration] =>
      if isStopPoint c message decoration then ([], [])
      else if !pyIn (chars ":") message then
        let pu := parseLines c rest
        (pu.1, pyStripWS message :: pu.2)
      else
        let parts := pySplit (chars ":") message
        let code := parts.headD []
        let msg := pyJoin (chars ":") (parts.drop 1)
        let pu := parseLines c rest
        ((pyStripWS code, pyStripWS msg, pyStripWS decoration) :: pu.1, pu.2)
    | _ => parseLines c rest

/-- `ReleaseNoteCompiler._parse_commit_messages` on the raw log string. -/
def parseCommitMessages (c : ReleaseNoteCompiler) (log : List Char) :
    List Commit × List (List Char) :=
  parseLines c (pySplitlines log)

/-! ## Categorisation (`_categorise_commit_messages`)

`release_notes` is a Python dict, modelled as an insertion-ordered
association list; `d[k] = v` keeps the position of an existing key and
appends a fresh one, `d[k]` on a missing key raises `KeyError` (modelled by
`none`). -/

/-- Dict lookup `d[k]` (as `Option`). -/
def alookup {α : Type} : List (List Char × α) → List Char → Option α
  | [], _ => none
  | (k, v) :: t, key => if k = key then some v else alookup t key

/-- Dict assignment `d[k] = v`. -/
def pyDictSet {α : Type} (d : List (List Char × α)) (k : List Char) (v : α) :
    List (List Char × α) :=
  if (alookup d k).isSome then d.map (fun p => if p.1 = k then (k, v) else p)
  else d ++ [(k, v)]

/-- `release_notes = {heading: [] for heading in mapping.values()}`. -/
def initialReleaseNotesDict (mapping : List (List Char × List Char)) :
    List (List Char × List (List Char)) :=
  mapping.foldl (fun d p => pyDictSet d p.2 []) []

/-- One iteration of the categorisation loop:
`try: release_notes[mapping[code]].append(message)`
`except KeyError: release_notes["### Other"].append(message)`.
A `KeyError` from either subscript of the `try` body is caught; a
`KeyError` from the handler's own subscript propagates (`none`). -/
def catStep (mapping : List (List Char × List Char))
    (d : List (List Char × List (List Char))) (code message : List Char) :
    Option (List (List Char × List (List Char))) :=
  ((alookup mapping code).bind
      (fun h => (alookup d h).map (fun v => pyDictSet d h (v ++ [message])))).orElse
    (fun _ => (alookup d sOTHER).map (fun v => pyDictSet d sOTHER (v ++ [message])))

/-- The categorisation loop over the parsed commits. -/
def catLoop (mapping : List (List Char × List Char))
    (d : List (List Char × List (List Char))) :
    List Commit → Option (List (List Char × List (List Char)))
  | [] => some d
  | (code, message, _) :: rest =>
    match catStep mapping d code message with
    | none => none
    | some d2 => catLoop mapping d2 rest

/-- `ReleaseNoteCompiler._categorise_commit_messages`. -/
def categoriseCommitMessages (c : ReleaseNoteCompiler) (parsed : List Commit)
    (unparsed : List (List Char)) : Option (List (List Char × List (List Char))) :=
  (catLoop c.commit_codes_to_headings_mapping
      (initialReleaseNotesDict c.commit_codes_to_headings_mapping) parsed).map
    (fun d => pyDictSet d sUNCAT unparsed)

/-! ## Rendering (`_build_release_notes`) and merging -/

/-- The text a single `(heading, notes)` bucket contributes: nothing when
empty, else `f"{heading}\n{note_lines}\n\n"` with
`note_lines = "\n".join(symbol + note for note in notes)`. -/
def sectionText (symbol : List Char) (p : List Char × List (List Char)) : List Char :=
  if p.2.length = 0 then []
  else p.1 ++ chars "\n" ++ pyJoin (chars "\n") (p.2.map (fun note => symbol ++ note)) ++ chars "\n\n"

/-- `ReleaseNoteCompiler._build_release_notes`. -/
def buildReleaseNotes (c : ReleaseNoteCompiler)
    (d : List (List Char × List (List Char))) : List Char :=
  (sSTART ++ chars "\n" ++ c.header ++ chars "\n\n"
    ++ (d.map (sectionText c.list_item_symbol)).flatten) ++ sEND

/-- The merge step of `compile_release_notes` (its final statement, lines
99–110): split the previous notes on the start sentinel, re-join everything
after the first part and split that on the end sentinel, then join
`(first part stripped of newlines, fresh notes, last part stripped of
newlines)` with newlines and strip quotes/newlines from the result. -/
def mergeNotes (previous auto : List Char) : List Char :=
  let beforeParts := pySplit sSTART previous
  let afterParts := pySplit sEND (pyJoin [] (beforeParts.drop 1))
  stripBoth (chars "\"\n")
    (pyJoin (chars "\n")
      [ stripBoth (chars "\n") (beforeParts.headD []),
        auto,
        stripBoth (chars "\n") (afterParts.getLastD []) ])

/-- Python truthiness of the optional `previous_notes` string. -/
def truthy : Option (List Char) → Bool
  | none => false
  | some s => !s.isEmpty

/-- `ReleaseNoteCompiler.compile_release_notes`, with the git log passed in
(the `git log` subprocess is a collaborator).  `none` models an uncaught
`KeyError` from categorisation. -/
def compileReleaseNotes (c : ReleaseNoteCompiler) (gitLog : List Char) :
    Option (List Char) :=
  if truthy c.previous_notes && pyIn sSKIP (c.previous_notes.getD []) then
    c.previous_notes
  else
    let pu := parseCommitMessages c gitLog
    (categoriseCommitMessages c pu.1 pu.2).map (fun cat =>
      let auto := buildReleaseNotes c cat
      if !truthy c.previous_notes then auto
      else mergeNotes (c.previous_notes.getD []) auto)

/-! ## Concrete compiler states used in examples -/

/-- The default `header` argument. -/
def defaultHeader : List Char := chars "## Contents"

/-- The default `list_item_symbol` argument. -/
def defaultSymbol : List Char := chars "- [x] "

/-- A compiler constructed with stop point `LAST_RELEASE` and defaults. -/
def cLR : ReleaseNoteCompiler :=
  ⟨chars "LAST_RELEASE", none, defaultHeader, defaultSymbol, COMMIT_CODES_TO_HEADINGS_MAPPING⟩

/-- A compiler constructed with stop point `LAST_PULL_REQUEST` and defaults. -/
def cLPR : ReleaseNoteCompiler :=
  ⟨chars "LAST_PULL_REQUEST", none, defaultHeader, defaultSymbol, COMMIT_CODES_TO_HEADINGS_MAPPING⟩

/-- A compiler whose previous notes consist of just the skip sentinel. -/
def cSkip : ReleaseNoteCompiler :=
  ⟨chars "LAST_RELEASE", some sSKIP, defaultHeader, defaultSymbol, COMMIT_CODES_TO_HEADINGS_MAPPING⟩

/-- A compiler with an overriding mapping that designates no code for
`"### Other"`. -/
def cNoOther : ReleaseNoteCompiler :=
  ⟨chars "LAST_RELEASE", none, defaultHeader, defaultSymbol, [(chars "FEA", chars "### X")]⟩

/-- The spec-side semantic-version tag pattern: `s` contains a substring
`tag: <major>.<minor>.<patch>`, each component one-or-more digits. -/
def SemverTagMatch (s : List Char) : Prop :=
  ∃ pre a b c post,
    s = pre ++ chars "tag: " ++ a ++ chars "." ++ b ++ chars "." ++ c ++ post ∧
    a ≠ [] ∧ a.all Char.isDigit = true ∧
    b ≠ [] ∧ b.all Char.isDigit = true ∧
    c ≠ [] ∧ c.all Char.isDigit = true

/-- Does a log line split into exactly two parts whose (header, decoration)
satisfy the stop-point test? -/
def lineIsStop (c : ReleaseNoteCompiler) (line : List Char) : Bool :=
  match pySplit (chars "|") line with
  | [message, decoration] => isStopPoint c message decoration
  | _ => false

/-- The three-line example log of the specification. -/
def exLogC3 : List Char :=
  chars "REF: Merge commit message checker modules|(tag-less decoration)\nMRG: Merge pull request #3 from org/feature-x|\nCHO: Remove hook installation|(tag: 0.0.3, main)"

/-! ## Specification-side definitions for the merge engine -/

/-- Everything strictly before the first occurrence of `sep` in `s` (the
whole of `s` when `sep` does not occur). -/
def beforeFirstOcc (sep : List Char) : List Char → List Char
  | [] => []
  | c :: t =>
    if sep.isPrefixOf (c :: t) then [] else c :: beforeFirstOcc sep t

/-- Everything strictly after the first occurrence of `sep` in `s` (empty
when `sep` does not occur). -/
def afterFirstOcc (sep : List Char) : List Char → List Char
  | [] => []
  | c :: t =>
    if sep.isPrefixOf (c :: t) then (c :: t).drop sep.length
    else afterFirstOcc sep t

/-- Everything strictly after the last occurrence of `sep` in `s`; `none`
when `sep` does not occur. -/
def afterLastOcc (sep : List Char) : List Char → Option (List Char)
  | [] => if sep.isEmpty then some [] else none
  | c :: t =>
    match afterLastOcc sep t with
    | some r => some r
    | none =>
      if sep.isPrefixOf (c :: t) then some ((c :: t).drop sep.length) else none

/-- Fuel-driven worker for `removeAll`. -/
def removeAllF (sep : List Char) : Nat → List Char → List Char
  | 0, s => s
  | _ + 1, [] => []
  | fuel + 1, c :: t =>
    if sep.isPrefixOf (c :: t) then removeAllF sep fuel ((c :: t).drop sep.length)
    else c :: removeAllF sep fuel t

/-- Greedy left-to-right removal of every occurrence of `sep` from `s`
(what `"".join(s.split(sep))` computes). -/
def removeAll (sep s : List Char) : List Char := removeAllF sep s.length s

/-- Trim trailing newlines only. -/
def stripTrailNL (s : List Char) : List Char := stripRight (chars "\n") s

/-- Claim C1 read literally: the text before the FIRST start sentinel with
trailing newlines trimmed, a line break, the fresh notes, a line break, the
text after the LAST end sentinel within the text following the first start
sentinel (that whole text when no end sentinel occurs) with trailing
newlines trimmed; quote characters and newlines stripped from the ends of
the result. -/
def specMergeC1 (previous auto : List Char) : List Char :=
  let pfx := beforeFirstOcc sSTART previous
  let tail := afterFirstOcc sSTART previous
  let sfx := (afterLastOcc sEND tail).getD tail
  stripBoth (chars "\"\n")
    (stripTrailNL pfx ++ chars "\n" ++ auto ++ chars "\n" ++ stripTrailNL sfx)

/-- The amended reading of C1: leading **and** trailing newlines are
trimmed from prefix and suffix, and the text searched for the last end
sentinel is the text following the first start sentinel with any further
start-sentinel occurrences removed. -/
def specMergeC1Amended (previous auto : List Char) : List Char :=
  let pfx := beforeFirstOcc sSTART previous
  let tail := removeAll sSTART (afterFirstOcc sSTART previous)
  let sfx := (afterLastOcc sEND tail).getD tail
  stripBoth (chars "\"\n")
    (stripBoth (chars "\n") pfx ++ chars "\n" ++ auto ++ chars "\n" ++
      stripBoth (chars "\n") sfx)

/-- A separator with no nontrivial border (no proper prefix equal to a
proper suffix): occurrences of it can never overlap. -/
def BorderFree (sep : List Char) : Prop :=
  ∀ k, 0 < k → k < sep.length → sep.take k ≠ sep.drop (sep.length - k)

/-! ## Basic facts -/

theorem pyIn_nil_eq_false {sub : List Char} (h : sub ≠ []) : pyIn sub [] = false := by
  simp [pyIn, List.isEmpty_iff, h]

theorem sSKIP_ne_nil : sSKIP ≠ [] := by decide

theorem ne_nil_of_pyIn {sub s : List Char} (hsub : sub ≠ []) (h : pyIn sub s = true) :
    s ≠ [] := by
  intro hs
  subst hs
  rw [pyIn_nil_eq_false hsub] at h
  exact Bool.false_ne_true h

theorem truthy_some {s : List Char} (h : s ≠ []) : truthy (some s) = true := by
  simp [truthy, List.isEmpty_iff, h]

theorem isPrefixOf_iff_exists :
    ∀ (a s : List Char), a.isPrefixOf s = true ↔ ∃ t, s = a ++ t
  | [], s => by simp [List.isPrefixOf]
  | _ :: _, [] => by simp [List.isPrefixOf]
  | c :: a, d :: s => by
    simp only [List.isPrefixOf, Bool.and_eq_true, beq_iff_eq]
    constructor
    · rintro ⟨rfl, h⟩
      obtain ⟨t, rfl⟩ := (isPrefixOf_iff_exists a s).1 h
      exact ⟨t, rfl⟩
    · rintro ⟨t, ht⟩
      rw [List.cons_append] at ht
      injection ht with h1 h2
      exact ⟨h1.symm, (isPrefixOf_iff_exists a s).2 ⟨t, h2⟩⟩

/-- `dropWhile` jumps over a block of elements satisfying `p` and stops at
the first failure. -/
theorem dropWhile_all_append {p : Char → Bool} {xs : List Char}
    (h : ∀ x ∈ xs, p x = true) {y : Char} (hy : p y = false) (r : List Char) :
    (xs ++ y :: r).dropWhile p = y :: r := by
  induction xs with
  | nil => simp [List.dropWhile_cons, hy]
  | cons x xs ih =>
    rw [List.cons_append, List.dropWhile_cons, if_pos (h x (by simp))]
    exact ih (fun a ha => h a (by simp [ha]))

/-! ## Properties of `firstSplit` and `pySplit` -/

theorem firstSplit_sound {sep s p q : List Char}
    (h : firstSplit sep s = some (p, q)) : s = p ++ sep ++ q := by
  induction s generalizing p q with
  | nil =>
    rw [firstSplit] at h
    by_cases hp : sep.isPrefixOf ([] : List Char) = true
    · rw [if_pos hp] at h
      obtain ⟨t, ht⟩ := (isPrefixOf_iff_exists sep []).1 hp
      rw [eq_comm, List.append_eq_nil] at ht
      injection h with h
      injection h with h1 h2
      simp [← h1, ← h2, ht.1]
    · rw [if_neg hp] at h
      exact absurd h (by simp)
  | cons c t ih =>
    rw [firstSplit] at h
    by_cases hp : sep.isPrefixOf (c :: t) = true
    · rw [if_pos hp] at h
      obtain ⟨u, hu⟩ := (isPrefixOf_iff_exists sep (c :: t)).1 hp
      injection h with h
      injection h with h1 h2
      rw [← h1, ← h2, List.nil_append, hu, List.drop_left]
    · rw [if_neg hp] at h
      cases hf : firstSplit sep t with
      | none => rw [hf] at h; exact absurd h (by simp)
      | some pq =>
        obtain ⟨p0, q0⟩ := pq
        rw [hf] at h
        simp only [Option.map_some'] at h
        injection h with h
        injection h with h1 h2
        rw [← h1, ← h2, ih hf]
        simp

theorem firstSplit_length {sep s p q : List Char} (hsep : sep ≠ [])
    (h : firstSplit sep s = some (p, q)) : q.length < s.length := by
  have hs := firstSplit_sound h
  rw [hs]
  simp only [List.length_append]
  have : 0 < sep.length := List.length_pos.2 hsep
  omega

theorem firstSplit_nil_of_ne {sep : List Char} (hsep : sep ≠ []) :
    firstSplit sep [] = none := by
  rw [firstSplit, if_neg]
  intro hp
  obtain ⟨t, ht⟩ := (isPrefixOf_iff_exists sep []).1 hp
  rw [eq_comm, List.append_eq_nil] at ht
  exact hsep ht.1

theorem pySplitF_congr {sep : List Char} (hsep : sep ≠ []) :
    ∀ (f1 f2 : Nat) (s : List Char), s.length ≤ f1 → s.length ≤ f2 →
      pySplitF sep f1 s = pySplitF sep f2 s := by
  intro f1
  induction f1 with
  | zero =>
    intro f2 s h1 _
    have hs : s = [] := List.length_eq_zero.1 (Nat.le_zero.1 h1)
    subst hs
    cases f2 with
    | zero => rfl
    | succ f2 => rw [pySplitF, pySplitF, firstSplit_nil_of_ne hsep]
  | succ f1 ih =>
    intro f2 s h1 h2
    cases f2 with
    | zero =>
      have hs : s = [] := List.length_eq_zero.1 (Nat.le_zero.1 h2)
      subst hs
      rw [pySplitF, pySplitF, firstSplit_nil_of_ne hsep]
    | succ f2 =>
      rw [pySplitF, pySplitF]
      cases hf : firstSplit sep s with
      | none => rfl
      | some pq =>
        obtain ⟨p, q⟩ := pq
        have hq : q.length < s.length := firstSplit_length hsep hf
        show p :: pySplitF sep f1 q = p :: pySplitF sep f2 q
        rw [ih f2 q (by omega) (by omega)]

/-- The defining one-step equation of Python `split`. -/
theorem pySplit_eq {sep : List Char} (hsep : sep ≠ []) (s : List Char) :
    pySplit sep s =
      match firstSplit sep s with
      | none => [s]
      | some (p, q) => p :: pySplit sep q := by
  cases hf : firstSplit sep s with
  | none =>
    show pySplitF sep s.length s = [s]
    cases hl : s.length with
    | zero => rw [pySplitF]
    | succ n => rw [pySplitF, hf]
  | some pq =>
    obtain ⟨p, q⟩ := pq
    have hq : q.length < s.length := firstSplit_length hsep hf
    show pySplitF sep s.length s = p :: pySplitF sep q.length q
    cases hl : s.length with
    | zero => omega
    | succ n =>
      rw [pySplitF, hf]
      show p :: pySplitF sep n q = _
      rw [pySplitF_congr hsep n q.length q (by omega) (by omega)]

theorem pySplit_ne_nil {sep : List Char} (hsep : sep ≠ []) (s : List Char) :
    pySplit sep s ≠ [] := by
  rw [pySplit_eq hsep]
  cases firstSplit sep s with
  | none => simp
  | some pq => obtain ⟨p, q⟩ := pq; simp

theorem pyIn_cons {sub : List Char} {c : Char} {t : List Char} :
    pyIn sub (c :: t) = (sub.isPrefixOf (c :: t) || pyIn sub t) := rfl

theorem firstSplit_none_iff {sep : List Char} (hsep : sep ≠ []) (s : List Char) :
    firstSplit sep s = none ↔ pyIn sep s = false := by
  induction s with
  | nil =>
    rw [firstSplit_nil_of_ne hsep]
    simp [pyIn, List.isEmpty_iff, hsep]
  | cons c t ih =>
    rw [firstSplit, pyIn_cons]
    by_cases hp : sep.isPrefixOf (c :: t) = true
    · simp [hp]
    · rw [if_neg hp]
      rw [Bool.not_eq_true] at hp
      simp only [hp, Bool.false_or]
      cases hf : firstSplit sep t with
      | none =>
        simp only [Option.map_none']
        simp [ih.1 hf]
      | some pq =>
        simp only [Option.map_some']
        constructor
        · intro hx; exact absurd hx (by simp)
        · intro hx
          have h2 := ih.2 hx
          rw [h2] at hf
          exact absurd hf (by simp)

/-- The first piece returned by `firstSplit` is occurrence-free. -/
theorem firstSplit_first {sep s p q : List Char} (hsep : sep ≠ [])
    (h : firstSplit sep s = some (p, q)) : pyIn sep p = false := by
  induction s generalizing p q with
  | nil => rw [firstSplit_nil_of_ne hsep] at h; exact absurd h (by simp)
  | cons c t ih =>
    rw [firstSplit] at h
    by_cases hp : sep.isPrefixOf (c :: t) = true
    · rw [if_pos hp] at h
      injection h with h
      injection h with h1 _
      rw [← h1]
      simp [pyIn, List.isEmpty_iff, hsep]
    · rw [if_neg hp] at h
      cases hf : firstSplit sep t with
      | none => rw [hf] at h; exact absurd h (by simp)
      | some pq =>
        obtain ⟨p0, q0⟩ := pq
        rw [hf] at h
        simp only [Option.map_some'] at h
        injection h with h
        injection h with h1 h2
        have hpt : pyIn sep p0 = false := ih hf
        rw [← h1, pyIn_cons]
        have hps : sep.isPrefixOf (c :: p0) = false := by
          rw [Bool.eq_false_iff]
          intro hcp
          obtain ⟨u, hu⟩ := (isPrefixOf_iff_exists sep (c :: p0)).1 hcp
          apply Bool.eq_false_iff.1 (Bool.not_eq_true _ ▸ hp)
          have hts : t = p0 ++ sep ++ q0 := firstSplit_sound hf
          apply (isPrefixOf_iff_exists sep (c :: t)).2
          refine ⟨u ++ sep ++ q0, ?_⟩
          rw [hts]
          calc c :: (p0 ++ sep ++ q0) = (c :: p0) ++ (sep ++ q0) := by simp
            _ = (sep ++ u) ++ (sep ++ q0) := by rw [hu]
            _ = sep ++ (u ++ sep ++ q0) := by simp
        rw [hps, hpt, Bool.or_self]

/-- A one-character separator splits first at `takeWhile`/`dropWhile`. -/
theorem firstSplit_singleton {ch : Char} {s : List Char}
    (h : pyIn [ch] s = true) :
    firstSplit [ch] s =
      some (s.takeWhile (fun c => !(c = ch)),
        (s.dropWhile (fun c => !(c = ch))).drop 1) := by
  induction s with
  | nil => rw [pyIn] at h; exact absurd h (by simp)
  | cons c t ih =>
    have hpre : List.isPrefixOf [ch] (c :: t) = (c = ch : Bool) := by
      show (ch == c && List.isPrefixOf [] t) = _
      by_cases hc : c = ch
      · simp [hc]
      · simp [hc, Ne.symm hc]
    by_cases hc : c = ch
    · subst hc
      rw [firstSplit, if_pos (by simp [hpre])]
      simp [List.takeWhile_cons, List.dropWhile_cons]
    · rw [firstSplit, if_neg (by simp [hpre, hc])]
      have ht : pyIn [ch] t = true := by
        rw [pyIn_cons, Bool.or_eq_true] at h
        rcases h with h | h
        · rw [hpre] at h
          exact absurd (by simpa using h) hc
        · exact h
      rw [ih ht]
      simp [List.takeWhile_cons, List.dropWhile_cons, hc]

theorem pyJoin_cons_of_ne_nil (sep p : List Char) {l : List (List Char)}
    (h : l ≠ []) : pyJoin sep (p :: l) = p ++ sep ++ pyJoin sep l := by
  cases l with
  | nil => exact absurd rfl h
  | cons y t => rw [pyJoin]

/-- Joining the pieces of a split with the separator reconstructs the
string (Python: `sep.join(s.split(sep)) == s`). -/
theorem pyJoin_pySplit {sep : List Char} (hsep : sep ≠ []) (s : List Char) :
    pyJoin sep (pySplit sep s) = s := by
  have H : ∀ (n : Nat) (s : List Char), s.length ≤ n →
      pyJoin sep (pySplit sep s) = s := by
    intro n
    induction n with
    | zero =>
      intro s hn
      have hs : s = [] := List.length_eq_zero.1 (Nat.le_zero.1 hn)
      subst hs
      rw [pySplit_eq hsep, firstSplit_nil_of_ne hsep, pyJoin]
    | succ n ih =>
      intro s hn
      rw [pySplit_eq hsep]
      cases hf : firstSplit sep s with
      | none => rw [pyJoin]
      | some pq =>
        obtain ⟨p, q⟩ := pq
        have hq : q.length < s.length := firstSplit_length hsep hf
        rw [pyJoin_cons_of_ne_nil sep p (pySplit_ne_nil hsep q),
          ih q (by omega)]
        exact (firstSplit_sound hf).symm
  exact H s.length s (Nat.le_refl _)

/-! ## Occurrence functions against `firstSplit` -/

theorem beforeFirstOcc_of_none {sep s : List Char}
    (h : firstSplit sep s = none) : beforeFirstOcc sep s = s := by
  induction s with
  | nil => rfl
  | cons c t ih =>
    rw [firstSplit] at h
    by_cases hp : sep.isPrefixOf (c :: t) = true
    · rw [if_pos hp] at h; exact absurd h (by simp)
    · rw [if_neg hp] at h
      rw [beforeFirstOcc, if_neg hp]
      cases hf : firstSplit sep t with
      | none => rw [ih hf]
      | some pq => rw [hf] at h; exact absurd h (by simp)

theorem beforeFirstOcc_of_some {sep s p q : List Char}
    (h : firstSplit sep s = some (p, q)) : beforeFirstOcc sep s = p := by
  induction s generalizing p q with
  | nil =>
    rw [firstSplit] at h
    by_cases hp : sep.isPrefixOf ([] : List Char) = true
    · rw [if_pos hp] at h
      injection h with h
      injection h with h1 _
    · rw [if_neg hp] at h; exact absurd h (by simp)
  | cons c t ih =>
    rw [firstSplit] at h
    by_cases hp : sep.isPrefixOf (c :: t) = true
    · rw [if_pos hp] at h
      injection h with h
      injection h with h1 _
      rw [← h1, beforeFirstOcc, if_pos hp]
    · rw [if_neg hp] at h
      cases hf : firstSplit sep t with
      | none => rw [hf] at h; exact absurd h (by simp)
      | some pq =>
        obtain ⟨p0, q0⟩ := pq
        rw [hf] at h
        simp only [Option.map_some'] at h
        injection h with h
        injection h with h1 _
        rw [← h1, beforeFirstOcc, if_neg hp, ih hf]

theorem afterFirstOcc_of_none {sep s : List Char}
    (h : firstSplit sep s = none) : afterFirstOcc sep s = [] := by
  induction s with
  | nil => rfl
  | cons c t ih =>
    rw [firstSplit] at h
    by_cases hp : sep.isPrefixOf (c :: t) = true
    · rw [if_pos hp] at h; exact absurd h (by simp)
    · rw [if_neg hp] at h
      rw [afterFirstOcc, if_neg hp]
      cases hf : firstSplit sep t with
      | none => exact ih hf
      | some pq => rw [hf] at h; exact absurd h (by simp)

theorem afterFirstOcc_of_some {sep s p q : List Char}
    (h : firstSplit sep s = some (p, q)) : afterFirstOcc sep s = q := by
  induction s generalizing p q with
  | nil =>
    rw [firstSplit] at h
    by_cases hp : sep.isPrefixOf ([] : List Char) = true
    · rw [if_pos hp] at h
      injection h with h
      injection h with _ h2
    · rw [if_neg hp] at h; exact absurd h (by simp)
  | cons c t ih =>
    rw [firstSplit] at h
    by_cases hp : sep.isPrefixOf (c :: t) = true
    · rw [if_pos hp] at h
      injection h with h
      injection h with _ h2
      rw [← h2, afterFirstOcc, if_pos hp]
    · rw [if_neg hp] at h
      cases hf : firstSplit sep t with
      | none => rw [hf] at h; exact absurd h (by simp)
      | some pq =>
        obtain ⟨p0, q0⟩ := pq
        rw [hf] at h
        simp only [Option.map_some'] at h
        injection h with h
        injection h with _ h2
        rw [← h2, afterFirstOcc, if_neg hp, ih hf]

/-! ## `removeAll` -/

theorem removeAllF_congr {sep : List Char} (hsep : sep ≠ []) :
    ∀ (f1 f2 : Nat) (s : List Char), s.length ≤ f1 → s.length ≤ f2 →
      removeAllF sep f1 s = removeAllF sep f2 s := by
  intro f1
  induction f1 with
  | zero =>
    intro f2 s h1 _
    have hs : s = [] := List.length_eq_zero.1 (Nat.le_zero.1 h1)
    subst hs
    cases f2 with
    | zero => rfl
    | succ f2 => rw [removeAllF, removeAllF]
  | succ f1 ih =>
    intro f2 s h1 h2
    cases f2 with
    | zero =>
      have hs : s = [] := List.length_eq_zero.1 (Nat.le_zero.1 h2)
      subst hs
      rw [removeAllF, removeAllF]
    | succ f2 =>
      cases s with
      | nil => rw [removeAllF, removeAllF]
      | cons c t =>
        rw [removeAllF, removeAllF]
        by_cases hp : sep.isPrefixOf (c :: t) = true
        · rw [if_pos hp, if_pos hp]
          obtain ⟨u, hu⟩ := (isPrefixOf_iff_exists sep (c :: t)).1 hp
          have hd : (c :: t).drop sep.length = u := by rw [hu, List.drop_left]
          have hlen : u.length + sep.length = t.length + 1 := by
            have := congrArg List.length hu
            simp only [List.length_cons, List.length_append] at this
            omega
          have hsl : 0 < sep.length := List.length_pos.2 hsep
          rw [hd]
          exact ih f2 u (by simp at h1; omega) (by simp at h2; omega)
        · rw [if_neg hp, if_neg hp,
            ih f2 t (by simp at h1; omega) (by simp at h2; omega)]

/-- Greedy removal at a matching position skips the separator. -/
theorem removeAll_cons_pos {sep : List Char} (hsep : sep ≠ []) {c : Char}
    {t : List Char} (hp : sep.isPrefixOf (c :: t) = true) :
    removeAll sep (c :: t) = removeAll sep ((c :: t).drop sep.length) := by
  show removeAllF sep (t.length + 1) (c :: t) = _
  rw [removeAllF, if_pos hp]
  obtain ⟨u, hu⟩ := (isPrefixOf_iff_exists sep (c :: t)).1 hp
  have hd : (c :: t).drop sep.length = u := by rw [hu, List.drop_left]
  have hlen : u.length + sep.length = t.length + 1 := by
    have := congrArg List.length hu
    simp only [List.length_cons, List.length_append] at this
    omega
  have hsl : 0 < sep.length := List.length_pos.2 hsep
  rw [hd]
  exact removeAllF_congr hsep t.length u.length u (by omega) (by omega)

/-- Greedy removal at a non-matching position keeps the character. -/
theorem removeAll_cons_neg {sep : List Char} (_hsep : sep ≠ []) {c : Char}
    {t : List Char} (hp : ¬sep.isPrefixOf (c :: t) = true) :
    removeAll sep (c :: t) = c :: removeAll sep t := by
  show removeAllF sep (t.length + 1) (c :: t) = _
  rw [removeAllF, if_neg hp]
  rfl

theorem removeAll_of_not_in {sep : List Char} (hsep : sep ≠ []) {s : List Char}
    (h : pyIn sep s = false) : removeAll sep s = s := by
  induction s with
  | nil => rfl
  | cons c t ih =>
    rw [pyIn_cons, Bool.or_eq_false_iff] at h
    rw [removeAll_cons_neg hsep (by simp [h.1]), ih h.2]

theorem pyJoin_nil_sep : ∀ (l : List (List Char)), pyJoin [] l = l.flatten
  | [] => rfl
  | [x] => by simp [pyJoin]
  | x :: y :: t => by
    rw [pyJoin, pyJoin_nil_sep (y :: t)]
    simp

/-- Concatenating the pieces of a split removes exactly the greedy
occurrences of the separator (what `"".join(s.split(sep))` computes). -/
theorem flatten_pySplit {sep : List Char} (hsep : sep ≠ []) (s : List Char) :
    (pySplit sep s).flatten = removeAll sep s := by
  have H : ∀ (n : Nat) (s : List Char), s.length ≤ n →
      (pySplit sep s).flatten = removeAll sep s := by
    intro n
    induction n with
    | zero =>
      intro s hn
      have hs : s = [] := List.length_eq_zero.1 (Nat.le_zero.1 hn)
      subst hs
      rw [pySplit_eq hsep, firstSplit_nil_of_ne hsep]
      rfl
    | succ n ih =>
      intro s hn
      cases s with
      | nil =>
        rw [pySplit_eq hsep, firstSplit_nil_of_ne hsep]
        rfl
      | cons c t =>
        by_cases hp : sep.isPrefixOf (c :: t) = true
        · have hf : firstSplit sep (c :: t) =
              some ([], (c :: t).drop sep.length) := by
            rw [firstSplit, if_pos hp]
          rw [pySplit_eq hsep, hf, removeAll_cons_pos hsep hp]
          show (pySplit sep ((c :: t).drop sep.length)).flatten = _
          obtain ⟨u, hu⟩ := (isPrefixOf_iff_exists sep (c :: t)).1 hp
          have hd : (c :: t).drop sep.length = u := by rw [hu, List.drop_left]
          have hlen : u.length + sep.length = t.length + 1 := by
            have := congrArg List.length hu
            simp only [List.length_cons, List.length_append] at this
            omega
          have hsl : 0 < sep.length := List.length_pos.2 hsep
          rw [hd]
          exact ih u (by simp at hn; omega)
        · rw [removeAll_cons_neg hsep hp]
          cases hf : firstSplit sep t with
          | none =>
            have hfc : firstSplit sep (c :: t) = none := by
              rw [firstSplit, if_neg hp, hf]
              rfl
            rw [pySplit_eq hsep, hfc,
              removeAll_of_not_in hsep ((firstSplit_none_iff hsep t).1 hf)]
            simp
          | some pq =>
            obtain ⟨p, q⟩ := pq
            have hfc : firstSplit sep (c :: t) = some (c :: p, q) := by
              rw [firstSplit, if_neg hp, hf]
              rfl
            have hft : (pySplit sep t).flatten = removeAll sep t :=
              ih t (by simp at hn; omega)
            rw [pySplit_eq hsep t, hf] at hft
            rw [pySplit_eq hsep, hfc]
            show ((c :: p) :: pySplit sep q).flatten = c :: removeAll sep t
            rw [← hft]
            simp
  exact H s.length s (Nat.le_refl _)

/-! ## Occurrence overlap and the last-occurrence characterisation -/

theorem pyIn_iff_exists {sep s : List Char} :
    pyIn sep s = true ↔ ∃ a b, s = a ++ sep ++ b := by
  induction s with
  | nil =>
    rw [pyIn]
    constructor
    · intro h
      have : sep = [] := by simpa [List.isEmpty_iff] using h
      exact ⟨[], [], by simp [this]⟩
    · rintro ⟨a, b, hab⟩
      rw [eq_comm] at hab
      simp only [List.append_eq_nil] at hab
      simp [List.isEmpty_iff, hab.1.2]
  | cons c t ih =>
    rw [pyIn_cons, Bool.or_eq_true]
    constructor
    · rintro (h | h)
      · obtain ⟨u, hu⟩ := (isPrefixOf_iff_exists sep (c :: t)).1 h
        exact ⟨[], u, by simp [hu]⟩
      · obtain ⟨a, b, hab⟩ := ih.1 h
        exact ⟨c :: a, b, by simp [hab]⟩
    · rintro ⟨a, b, hab⟩
      cases a with
      | nil =>
        left
        rw [List.nil_append] at hab
        exact (isPrefixOf_iff_exists sep (c :: t)).2 ⟨b, hab⟩
      | cons a0 a1 =>
        right
        rw [List.cons_append, List.cons_append] at hab
        injection hab with _ h2
        exact ih.2 ⟨a1, b, h2⟩

/-- The one-step equation of `afterLastOcc` on a cons. -/
theorem afterLastOcc_cons (sep : List Char) (c : Char) (t : List Char) :
    afterLastOcc sep (c :: t) =
      match afterLastOcc sep t with
      | some r => some r
      | none =>
        if sep.isPrefixOf (c :: t) then some ((c :: t).drop sep.length)
        else none := rfl

theorem afterLastOcc_none_iff {sep : List Char} (hsep : sep ≠ [])
    (s : List Char) : afterLastOcc sep s = none ↔ pyIn sep s = false := by
  induction s with
  | nil =>
    have h1 : afterLastOcc sep [] = none := by
      rw [afterLastOcc, if_neg (by simp [List.isEmpty_iff, hsep])]
    rw [h1, pyIn_nil_eq_false hsep]
    simp
  | cons c t ih =>
    rw [afterLastOcc_cons, pyIn_cons]
    cases ha : afterLastOcc sep t with
    | some r =>
      have hpt : pyIn sep t = true := by
        by_contra hx
        rw [Bool.not_eq_true] at hx
        rw [ih.2 hx] at ha
        exact absurd ha (by simp)
      simp [hpt]
    | none =>
      have hpt : pyIn sep t = false := ih.1 ha
      simp only [hpt, Bool.or_false]
      by_cases hp : sep.isPrefixOf (c :: t) = true
      · simp [hp]
      · simp [hp]

theorem afterLastOcc_prepend {sep t r : List Char}
    (h : afterLastOcc sep t = some r) :
    ∀ (x : List Char), afterLastOcc sep (x ++ t) = some r := by
  intro x
  induction x with
  | nil => simpa using h
  | cons c x ih =>
    rw [List.cons_append, afterLastOcc_cons, ih]

/-- In a border-free separator, no occurrence can begin strictly inside an
occurrence: dropping `k` characters from the separator and appending
occurrence-free text yields occurrence-free text. -/
theorem borderFree_no_occ_in_drop {sep : List Char} (hb : BorderFree sep)
    {q : List Char} (hq : pyIn sep q = false) {k : Nat} (hk0 : 0 < k)
    (hkn : k ≤ sep.length) : pyIn sep (sep.drop k ++ q) = false := by
  by_contra hx
  rw [Bool.not_eq_false] at hx
  obtain ⟨a, b, hab⟩ := pyIn_iff_exists.1 hx
  have h1 : sep.drop k <+: sep.drop k ++ q := List.prefix_append _ _
  have h2 : a <+: sep.drop k ++ q := by
    rw [hab]
    exact (List.prefix_append a sep).trans (List.prefix_append (a ++ sep) b)
  by_cases hcase : sep.length - k ≤ a.length
  · have hpre : sep.drop k <+: a :=
      List.prefix_of_prefix_length_le h1 h2 (by simp [hcase])
    obtain ⟨a2, ha2⟩ := hpre
    rw [← ha2, List.append_assoc, List.append_assoc] at hab
    have hq2 := List.append_cancel_left hab
    rw [← List.append_assoc] at hq2
    exact absurd (pyIn_iff_exists.2 ⟨a2, b, hq2⟩) (by simp [hq])
  · push_neg at hcase
    have hpre : a <+: sep.drop k :=
      List.prefix_of_prefix_length_le h2 h1 (by simp; omega)
    obtain ⟨w, hw⟩ := hpre
    rw [← hw, List.append_assoc, List.append_assoc] at hab
    have hwq : w ++ q = sep ++ b := List.append_cancel_left hab
    have hwlen : w.length = sep.length - k - a.length := by
      have := congrArg List.length hw
      simp only [List.length_append, List.length_drop] at this
      omega
    have hwpos : 0 < w.length := by omega
    have hwlt : w.length < sep.length := by omega
    have hwpre : w <+: sep := by
      have hwp : w <+: sep ++ b := by
        rw [← hwq]
        exact List.prefix_append _ _
      exact List.prefix_of_prefix_length_le hwp (List.prefix_append _ _)
        (by omega)
    have hwsuf : w <:+ sep := by
      have h3 : w <:+ a ++ w := List.suffix_append _ _
      rw [hw] at h3
      exact h3.trans (List.drop_suffix _ _)
    have htake : sep.take w.length = w := (List.prefix_iff_eq_take.1 hwpre).symm
    have hdrop : sep.drop (sep.length - w.length) = w :=
      (List.suffix_iff_eq_drop.1 hwsuf).symm
    exact hb w.length hwpos hwlt (htake.trans hdrop.symm)

theorem afterLastOcc_append_self {sep : List Char} (hb : BorderFree sep)
    (hsep : sep ≠ []) {q : List Char} (hq : pyIn sep q = false) :
    ∀ (p : List Char), afterLastOcc sep (p ++ sep ++ q) = some q := by
  intro p
  induction p with
  | nil =>
    rw [List.nil_append]
    obtain ⟨s0, sep2, hsp⟩ : ∃ s0 sep2, sep = s0 :: sep2 := by
      cases sep with
      | nil => exact absurd rfl hsep
      | cons a bs => exact ⟨a, bs, rfl⟩
    have hnone : afterLastOcc sep (sep2 ++ q) = none := by
      rw [afterLastOcc_none_iff hsep]
      have h2 : sep2 = sep.drop 1 := by rw [hsp]; rfl
      rw [h2]
      refine borderFree_no_occ_in_drop hb hq (by omega) ?_
      have : 0 < sep.length := List.length_pos.2 hsep
      omega
    have hstep : sep ++ q = s0 :: (sep2 ++ q) := by rw [hsp]; rfl
    rw [hstep, afterLastOcc_cons, hnone, ← hstep,
      if_pos ((isPrefixOf_iff_exists sep (sep ++ q)).2 ⟨q, rfl⟩),
      List.drop_left]
  | cons c p ih =>
    have hstep : (c :: p) ++ sep ++ q = c :: (p ++ sep ++ q) := by simp
    rw [hstep, afterLastOcc_cons, ih]

/-- The last piece of a greedy split is exactly the text after the last
occurrence, provided the separator is border-free. -/
theorem getLastD_pySplit {sep : List Char} (hb : BorderFree sep)
    (hsep : sep ≠ []) (s : List Char) :
    (pySplit sep s).getLastD [] = (afterLastOcc sep s).getD s := by
  have H : ∀ (n : Nat) (s : List Char), s.length ≤ n →
      (pySplit sep s).getLastD [] = (afterLastOcc sep s).getD s := by
    intro n
    induction n with
    | zero =>
      intro s hn
      have hs : s = [] := List.length_eq_zero.1 (Nat.le_zero.1 hn)
      subst hs
      rw [pySplit_eq hsep, firstSplit_nil_of_ne hsep,
        (afterLastOcc_none_iff hsep []).2 (pyIn_nil_eq_false hsep)]
      rfl
    | succ n ih =>
      intro s hn
      rw [pySplit_eq hsep]
      cases hf : firstSplit sep s with
      | none =>
        rw [(afterLastOcc_none_iff hsep s).2 ((firstSplit_none_iff hsep s).1 hf)]
        rfl
      | some pq =>
        obtain ⟨p, q⟩ := pq
        have hlen : q.length < s.length := firstSplit_length hsep hf
        have hs : s = p ++ sep ++ q := firstSplit_sound hf
        have hihq : (pySplit sep q).getLastD [] = (afterLastOcc sep q).getD q :=
          ih q (by omega)
        cases hqs : pySplit sep q with
        | nil => exact absurd hqs (pySplit_ne_nil hsep q)
        | cons y t =>
          rw [hqs] at hihq
          have hl : (p :: y :: t).getLastD [] = (y :: t).getLastD [] := by
            simp only [List.getLastD_cons]
          show (p :: pySplit sep q).getLastD [] = (afterLastOcc sep s).getD s
          rw [hqs, hl, hihq]
          cases hal : afterLastOcc sep q with
          | some r =>
            have : afterLastOcc sep s = some r := by
              rw [hs]
              exact afterLastOcc_prepend hal (p ++ sep)
            rw [this]
            simp
          | none =>
            have hq : pyIn sep q = false := (afterLastOcc_none_iff hsep q).1 hal
            have : afterLastOcc sep s = some q := by
              rw [hs]
              exact afterLastOcc_append_self hb hsep hq p
            rw [this]
            simp
  exact H s.length s (Nat.le_refl _)

/-! ## Claims C1 and C9: the merge engine -/

theorem sSTART_ne_nil : sSTART ≠ [] := by decide

theorem sEND_ne_nil : sEND ≠ [] := by decide

/-- The end sentinel has no nontrivial border, so its occurrences never
overlap. -/
theorem borderFree_sEND : BorderFree sEND := by
  intro k hk0 hk
  have hall : ∀ k2 ∈ List.range sEND.length,
      k2 = 0 ∨ ¬sEND.take k2 = sEND.drop (sEND.length - k2) := by decide
  rcases hall k (List.mem_range.2 hk) with h | h
  · omega
  · exact h

/-- No nonempty proper suffix of the start sentinel is a prefix of the end
sentinel, so a start-sentinel occurrence can never straddle into a trailing
end sentinel. -/
theorem sSTART_drop_not_sEND_prefixOf :
    ∀ k, 0 < k → k < sSTART.length →
      (sSTART.drop k).isPrefixOf sEND = false := by
  intro k hk0 hk
  have hall : ∀ k2 ∈ List.range sSTART.length,
      k2 = 0 ∨ (sSTART.drop k2).isPrefixOf sEND = false := by decide
  rcases hall k (List.mem_range.2 hk) with h | h
  · omega
  · exact h

theorem headD_pySplit {sep : List Char} (hsep : sep ≠ []) (s : List Char) :
    (pySplit sep s).headD [] = beforeFirstOcc sep s := by
  rw [pySplit_eq hsep]
  cases hf : firstSplit sep s with
  | none => rw [beforeFirstOcc_of_none hf]; rfl
  | some pq =>
    obtain ⟨p, q⟩ := pq
    rw [beforeFirstOcc_of_some hf]
    rfl

theorem join_drop_pySplit {sep : List Char} (hsep : sep ≠ []) (s : List Char) :
    pyJoin [] ((pySplit sep s).drop 1) = removeAll sep (afterFirstOcc sep s) := by
  rw [pyJoin_nil_sep, pySplit_eq hsep]
  cases hf : firstSplit sep s with
  | none =>
    rw [afterFirstOcc_of_none hf]
    rfl
  | some pq =>
    obtain ⟨p, q⟩ := pq
    rw [afterFirstOcc_of_some hf]
    show (pySplit sep q).flatten = _
    exact flatten_pySplit hsep q

theorem pyJoin_three (sep a b c : List Char) :
    pyJoin sep [a, b, c] = a ++ sep ++ (b ++ sep ++ c) := rfl

/-- C1 counterexample: a previous-notes string with one start sentinel, no
skip sentinel, and leading newlines on its suffix; the code strips those
leading newlines (Python `strip("\n")` is two-sided) while the claim trims
only trailing newlines, so the results differ. -/
theorem c1_counterexample :
    pyIn sSTART (chars "X" ++ sSTART ++ sEND ++ chars "\n\nY") = true ∧
    pyIn sSKIP (chars "X" ++ sSTART ++ sEND ++ chars "\n\nY") = false ∧
    mergeNotes (chars "X" ++ sSTART ++ sEND ++ chars "\n\nY") (chars "N") ≠
      specMergeC1 (chars "X" ++ sSTART ++ sEND ++ chars "\n\nY") (chars "N") :=
  ⟨by decide, by decide, by decide⟩

/-- C1 (amended): for previous notes containing the start sentinel and not
the skip sentinel, the merge result is the text before the FIRST start
sentinel, a line break, the fresh notes, a line break, and the text after
the LAST end sentinel within the text following the first start sentinel
with any further start-sentinel occurrences removed (that whole text when
no end sentinel occurs) — prefix and suffix stripped of leading AND
trailing newlines, and quotes/newlines stripped from the ends of the
result; in particular the specification's `BLAH/OLD/YUM` example holds. -/
theorem c1_merge_amended :
    (∀ previous auto : List Char,
      pyIn sSTART previous = true → pyIn sSKIP previous = false →
      mergeNotes previous auto = specMergeC1Amended previous auto) ∧
    mergeNotes
        (chars "BLAH\n" ++ sSTART ++ chars "\nOLD\n" ++ sEND ++ chars "\nYUM")
        (sSTART ++ chars "\nNEW\n" ++ sEND) =
      chars "BLAH\n" ++ sSTART ++ chars "\nNEW\n" ++ sEND ++ chars "\nYUM" := by
  constructor
  · intro previous auto _ _
    simp only [mergeNotes, specMergeC1Amended]
    rw [headD_pySplit sSTART_ne_nil, join_drop_pySplit sSTART_ne_nil,
      getLastD_pySplit borderFree_sEND sEND_ne_nil, pyJoin_three]
    simp [List.append_assoc]
  · decide

/-- Witness for C1 (amended) at concrete previous notes. -/
theorem c1_merge_amended_witness :
    mergeNotes (chars "A" ++ sSTART ++ chars "MID" ++ sEND ++ chars "B")
        (chars "N") =
      specMergeC1Amended (chars "A" ++ sSTART ++ chars "MID" ++ sEND ++ chars "B")
        (chars "N") :=
  c1_merge_amended.1 (chars "A" ++ sSTART ++ chars "MID" ++ sEND ++ chars "B")
    (chars "N") (by decide) (by decide)

theorem removeAll_step_pos {sep s : List Char} (hsep : sep ≠ [])
    (hp : sep.isPrefixOf s = true) (hs : s ≠ []) :
    removeAll sep s = removeAll sep (s.drop sep.length) := by
  cases s with
  | nil => exact absurd rfl hs
  | cons c t => exact removeAll_cons_pos hsep hp

/-- Greedy removal of start sentinels from a string ending in the end
sentinel leaves a string ending in the end sentinel: no start-sentinel
occurrence can eat into the trailing end sentinel. -/
theorem removeAll_start_trailing_end :
    ∀ (t : List Char), ∃ t2, removeAll sSTART (t ++ sEND) = t2 ++ sEND := by
  have H : ∀ (n : Nat) (t : List Char), t.length ≤ n →
      ∃ t2, removeAll sSTART (t ++ sEND) = t2 ++ sEND := by
    intro n
    induction n with
    | zero =>
      intro t hn
      have hs : t = [] := List.length_eq_zero.1 (Nat.le_zero.1 hn)
      subst hs
      exact ⟨[], by
        rw [List.nil_append, removeAll_of_not_in sSTART_ne_nil (by decide)]⟩
    | succ n ih =>
      intro t hn
      by_cases hp : sSTART.isPrefixOf (t ++ sEND) = true
      · obtain ⟨u, hu⟩ := (isPrefixOf_iff_exists sSTART (t ++ sEND)).1 hp
        by_cases hlen : sSTART.length ≤ t.length
        · have h1 : sSTART <+: t ++ sEND := ⟨u, hu.symm⟩
          have h3 : sSTART <+: t :=
            List.prefix_of_prefix_length_le h1 (List.prefix_append t sEND) hlen
          obtain ⟨t2, ht2⟩ := h3
          have hne : t ++ sEND ≠ [] := by
            intro hx
            rw [List.append_eq_nil] at hx
            exact sEND_ne_nil hx.2
          have hdrop : (t ++ sEND).drop sSTART.length = t2 ++ sEND := by
            rw [← ht2, List.append_assoc, List.drop_left]
          rw [removeAll_step_pos sSTART_ne_nil hp hne, hdrop]
          refine ih t2 ?_
          have := congrArg List.length ht2
          simp only [List.length_append] at this
          have h36 : 0 < sSTART.length := List.length_pos.2 sSTART_ne_nil
          omega
        · push_neg at hlen
          exfalso
          have h2 : t <+: sSTART :=
            List.prefix_of_prefix_length_le (List.prefix_append t sEND)
              ⟨u, hu.symm⟩ (Nat.le_of_lt hlen)
          obtain ⟨w, hw⟩ := h2
          rw [← hw, List.append_assoc] at hu
          have hEw : sEND = w ++ u := List.append_cancel_left hu
          cases ht0 : t with
          | nil =>
            rw [ht0, List.nil_append] at hw
            have hL := congrArg List.length hEw
            rw [hw] at hL
            simp only [List.length_append] at hL
            have h34 : sEND.length = 34 := by decide
            have h36 : sSTART.length = 36 := by decide
            omega
          | cons c0 t0 =>
            have htpos : 0 < t.length := by rw [ht0]; simp
            have hwd : w = sSTART.drop t.length := by
              rw [← hw, List.drop_left]
            have hpw : (sSTART.drop t.length).isPrefixOf sEND = true := by
              rw [← hwd]
              exact (isPrefixOf_iff_exists w sEND).2 ⟨u, hEw⟩
            rw [sSTART_drop_not_sEND_prefixOf t.length htpos hlen] at hpw
            exact absurd hpw (by simp)
      · cases t with
        | nil =>
          refine ⟨[], ?_⟩
          rw [List.nil_append, removeAll_of_not_in sSTART_ne_nil (by decide)]
        | cons c t2 =>
          have hp2 : ¬sSTART.isPrefixOf (c :: (t2 ++ sEND)) = true := by
            rw [← List.cons_append]
            exact hp
          obtain ⟨t3, ht3⟩ := ih t2 (by simp at hn; omega)
          refine ⟨c :: t3, ?_⟩
          rw [List.cons_append, removeAll_cons_neg sSTART_ne_nil hp2, ht3,
            List.cons_append]
  exact fun t => H t.length t (Nat.le_refl _)

theorem pySplit_self_append {sep : List Char} (hsep : sep ≠ []) (r : List Char) :
    pySplit sep (sep ++ r) = [] :: pySplit sep r := by
  have hf : firstSplit sep (sep ++ r) = some ([], r) := by
    obtain ⟨s0, sep2, hsp⟩ : ∃ s0 sep2, sep = s0 :: sep2 := by
      cases sep with
      | nil => exact absurd rfl hsep
      | cons a bs => exact ⟨a, bs, rfl⟩
    have hstep : sep ++ r = s0 :: (sep2 ++ r) := by rw [hsp]; rfl
    rw [hstep, firstSplit, ← hstep,
      if_pos ((isPrefixOf_iff_exists sep (sep ++ r)).2 ⟨r, rfl⟩),
      List.drop_left]
  rw [pySplit_eq hsep, hf]

theorem dropWhile_eq_self_of_head {p : Char → Bool} {l : List Char} {c : Char}
    (h : l.head? = some c) (hc : p c = false) : l.dropWhile p = l := by
  cases l with
  | nil => simp at h
  | cons a t =>
    rw [List.head?_cons, Option.some_inj] at h
    rw [List.dropWhile_cons, h, hc]
    simp

/-- Stripping quotes/newlines from a newline-wrapped string whose core
starts with `<` and ends with `>` recovers the core. -/
theorem stripBoth_wrap {x : List Char}
    (h1 : x.head? = some '<') (h2 : x.getLast? = some '>') :
    stripBoth (chars "\"\n") (chars "\n" ++ (x ++ chars "\n")) = x := by
  have hxa : (x ++ chars "\n").head? = some '<' := by
    cases x with
    | nil => simp at h1
    | cons a t =>
      rw [List.head?_cons, Option.some_inj] at h1
      rw [List.cons_append, List.head?_cons, h1]
  have hA : stripLeft (chars "\"\n") (chars "\n" ++ (x ++ chars "\n")) =
      x ++ chars "\n" := by
    show List.dropWhile _ ('\n' :: (x ++ chars "\n")) = x ++ chars "\n"
    rw [List.dropWhile_cons, if_pos (by decide)]
    exact dropWhile_eq_self_of_head hxa (by decide)
  have hB : stripRight (chars "\"\n") (x ++ chars "\n") = x := by
    rw [stripRight]
    have hrev : (x ++ chars "\n").reverse = '\n' :: x.reverse := by
      rw [List.reverse_append]
      rfl
    rw [hrev]
    show (List.dropWhile _ ('\n' :: x.reverse)).reverse = x
    rw [List.dropWhile_cons, if_pos (by decide),
      dropWhile_eq_self_of_head (by rw [List.head?_reverse]; exact h2)
        (by decide), List.reverse_reverse]
  rw [stripBoth, hA, hB]

/-- Merging a sentinel-delimited document into itself reproduces it: the
shape `START ++ mid ++ END` is a fixed point of the merge. -/
theorem mergeNotes_self_of_shape (mid : List Char) :
    mergeNotes (sSTART ++ (mid ++ sEND)) (sSTART ++ (mid ++ sEND)) =
      sSTART ++ (mid ++ sEND) := by
  obtain ⟨t2, ht2⟩ := removeAll_start_trailing_end mid
  have hafter : afterLastOcc sEND (t2 ++ sEND) = some [] := by
    have := afterLastOcc_append_self borderFree_sEND sEND_ne_nil
      (pyIn_nil_eq_false sEND_ne_nil) t2
    rw [List.append_nil] at this
    exact this
  have hlast : (pySplit sEND (t2 ++ sEND)).getLastD [] = [] := by
    rw [getLastD_pySplit borderFree_sEND sEND_ne_nil, hafter]
    rfl
  have hjoin : pyJoin []
      ((pySplit sSTART (sSTART ++ (mid ++ sEND))).drop 1) = t2 ++ sEND := by
    rw [pySplit_self_append sSTART_ne_nil, List.drop_one, List.tail_cons,
      pyJoin_nil_sep, flatten_pySplit sSTART_ne_nil, ht2]
  have hhead : (pySplit sSTART (sSTART ++ (mid ++ sEND))).headD [] = [] := by
    rw [pySplit_self_append sSTART_ne_nil]
    rfl
  have hh1 : (sSTART ++ (mid ++ sEND)).head? = some '<' := rfl
  have hh2 : (sSTART ++ (mid ++ sEND)).getLast? = some '>' := by
    rw [← List.append_assoc, List.getLast?_append_of_ne_nil _ sEND_ne_nil]
    decide
  simp only [mergeNotes]
  rw [hhead, hjoin, hlast, pyJoin_three]
  show stripBoth (chars "\"\n")
      ([] ++ chars "\n" ++ ((sSTART ++ (mid ++ sEND)) ++ chars "\n" ++
        stripBoth (chars "\n") [])) = _
  rw [List.nil_append]
  have : (sSTART ++ (mid ++ sEND)) ++ chars "\n" ++ stripBoth (chars "\n") [] =
      (sSTART ++ (mid ++ sEND)) ++ chars "\n" := by
    show (sSTART ++ (mid ++ sEND)) ++ chars "\n" ++ [] = _
    rw [List.append_nil]
  rw [this]
  exact stripBoth_wrap hh1 hh2

/-- C9: merging a rendered notes document (with no surrounding text) into
previous notes exactly equal to it reproduces the document unchanged, for
every header, list symbol and categorised content. -/
theorem c9_merge_idempotent (c : ReleaseNoteCompiler)
    (d : List (List Char × List (List Char))) :
    mergeNotes (buildReleaseNotes c d) (buildReleaseNotes c d) =
      buildReleaseNotes c d := by
  have hshape : buildReleaseNotes c d =
      sSTART ++ ((chars "\n" ++ c.header ++ chars "\n\n" ++
        (d.map (sectionText c.list_item_symbol)).flatten) ++ sEND) := by
    rw [buildReleaseNotes]
    simp [List.append_assoc]
  rw [hshape]
  exact mergeNotes_self_of_shape _

/-! ## The semantic-version regex, characterised

`SemverTagMatch` is the specification-side reading of
`SEMANTIC_VERSION_PATTERN.search`: the decoration contains, somewhere, the
literal `tag: ` followed by `<major>.<minor>.<patch>` with each component
one-or-more digits. -/

theorem parseDigits1_eq_some {s r : List Char} (h : parseDigits1 s = some r) :
    ∃ a, a ≠ [] ∧ a.all Char.isDigit = true ∧ s = a ++ r := by
  cases s with
  | nil => simp [parseDigits1] at h
  | cons c rest =>
    by_cases hc : c.isDigit = true
    · rw [parseDigits1, if_pos hc, Option.some_inj] at h
      refine ⟨c :: rest.takeWhile Char.isDigit, by simp, ?_, ?_⟩
      · rw [List.all_eq_true]
        intro x hx
        rcases List.mem_cons.1 hx with rfl | hx
        · exact hc
        · exact List.mem_takeWhile_imp hx
      · rw [← h, List.cons_append, List.takeWhile_append_dropWhile]
    · rw [parseDigits1, if_neg hc] at h
      exact absurd h (by simp)

theorem parseDigits1_append {a : List Char} (ha : a ≠ [])
    (had : a.all Char.isDigit = true) {y : Char} (hy : y.isDigit = false)
    (r : List Char) : parseDigits1 (a ++ y :: r) = some (y :: r) := by
  cases a with
  | nil => exact absurd rfl ha
  | cons a0 a1 =>
    rw [List.all_eq_true] at had
    rw [List.cons_append, parseDigits1, if_pos (had a0 (by simp)), Option.some_inj]
    exact dropWhile_all_append (fun x hx => had x (by simp [hx])) hy r

theorem parseDigits1_isSome_of_digit {c0 : Char} (h : c0.isDigit = true)
    (t : List Char) : (parseDigits1 (c0 :: t)).isSome = true := by
  simp [parseDigits1, h]

theorem expectDot_eq_some {r r2 : List Char} :
    expectDot r = some r2 ↔ r = '.' :: r2 := by
  cases r with
  | nil => simp [expectDot]
  | cons d t => by_cases hd : d = '.' <;> simp [expectDot, hd]

theorem semverAfterTag_iff {s : List Char} : semverAfterTag s = true ↔
    ∃ a b c post,
      s = a ++ chars "." ++ b ++ chars "." ++ c ++ post ∧
      a ≠ [] ∧ a.all Char.isDigit = true ∧
      b ≠ [] ∧ b.all Char.isDigit = true ∧
      c ≠ [] ∧ c.all Char.isDigit = true := by
  constructor
  · intro h
    rw [semverAfterTag, Option.isSome_iff_exists] at h
    obtain ⟨r5, h⟩ := h
    rw [Option.bind_eq_some] at h
    obtain ⟨r4, h4, h5⟩ := h
    rw [Option.bind_eq_some] at h4
    obtain ⟨r3, h3, hd2⟩ := h4
    rw [Option.bind_eq_some] at h3
    obtain ⟨r2, h2, h3x⟩ := h3
    rw [Option.bind_eq_some] at h2
    obtain ⟨r1, h1, hd1⟩ := h2
    rw [expectDot_eq_some] at hd1 hd2
    obtain ⟨a, ha, had, hsa⟩ := parseDigits1_eq_some h1
    obtain ⟨b, hb, hbd, hsb⟩ := parseDigits1_eq_some h3x
    obtain ⟨c, hc, hcd, hsc⟩ := parseDigits1_eq_some h5
    refine ⟨a, b, c, r5, ?_, ha, had, hb, hbd, hc, hcd⟩
    rw [hsa, hd1, hsb, hd2, hsc]
    simp [chars]
  · rintro ⟨a, b, c, post, rfl, ha, had, hb, hbd, hc, hcd⟩
    have hdot : ('.' : Char).isDigit = false := by decide
    have e1 : a ++ chars "." ++ b ++ chars "." ++ c ++ post =
        a ++ '.' :: (b ++ '.' :: (c ++ post)) := by simp [chars]
    rw [e1, semverAfterTag, parseDigits1_append ha had hdot, Option.some_bind,
      expectDot_eq_some.2 rfl, Option.some_bind, parseDigits1_append hb hbd hdot,
      Option.some_bind, expectDot_eq_some.2 rfl, Option.some_bind]
    cases c with
    | nil => exact absurd rfl hc
    | cons c0 c1 =>
      rw [List.all_eq_true] at hcd
      rw [List.cons_append]
      exact parseDigits1_isSome_of_digit (hcd c0 (by simp)) (c1 ++ post)

theorem matchesSemverAt_iff {y : List Char} : matchesSemverAt y = true ↔
    ∃ a b c post,
      y = chars "tag: " ++ a ++ chars "." ++ b ++ chars "." ++ c ++ post ∧
      a ≠ [] ∧ a.all Char.isDigit = true ∧
      b ≠ [] ∧ b.all Char.isDigit = true ∧
      c ≠ [] ∧ c.all Char.isDigit = true := by
  rw [matchesSemverAt, Bool.and_eq_true, isPrefixOf_iff_exists]
  constructor
  · rintro ⟨⟨t, rfl⟩, h⟩
    rw [List.drop_left' (by decide : (chars "tag: ").length = 5)] at h
    obtain ⟨a, b, c, post, rfl, hs⟩ := semverAfterTag_iff.1 h
    exact ⟨a, b, c, post, by simp, hs⟩
  · rintro ⟨a, b, c, post, rfl, hs⟩
    refine ⟨⟨a ++ chars "." ++ b ++ chars "." ++ c ++ post, by simp⟩, ?_⟩
    have e2 : chars "tag: " ++ a ++ chars "." ++ b ++ chars "." ++ c ++ post =
        chars "tag: " ++ (a ++ chars "." ++ b ++ chars "." ++ c ++ post) := by simp
    rw [e2, List.drop_left' (by decide : (chars "tag: ").length = 5)]
    exact semverAfterTag_iff.2 ⟨a, b, c, post, by simp, hs⟩

theorem semverSearch_iff_exists {s : List Char} : semverSearch s = true ↔
    ∃ x y, s = x ++ y ∧ matchesSemverAt y = true := by
  induction s with
  | nil =>
    simp only [semverSearch]
    constructor
    · intro h; exact absurd h (by simp)
    · rintro ⟨x, y, hxy, hm⟩
      rw [eq_comm, List.append_eq_nil] at hxy
      rw [hxy.2] at hm
      exact absurd hm (by decide)
  | cons c rest ih =>
    rw [semverSearch, Bool.or_eq_true]
    constructor
    · rintro (h | h)
      · exact ⟨[], c :: rest, rfl, h⟩
      · obtain ⟨x, y, rfl, hm⟩ := ih.1 h
        exact ⟨c :: x, y, rfl, hm⟩
    · rintro ⟨x, y, hxy, hm⟩
      cases x with
      | nil => left; rw [List.nil_append] at hxy; rw [hxy]; exact hm
      | cons x0 x1 =>
        right
        rw [List.cons_append] at hxy
        injection hxy with h1 h2
        exact ih.2 ⟨x1, y, h2, hm⟩

/-- The compiled regex search succeeds exactly on decorations containing a
numeric semantic-version tag. -/
theorem semverSearch_iff {s : List Char} :
    semverSearch s = true ↔ SemverTagMatch s := by
  rw [semverSearch_iff_exists]
  constructor
  · rintro ⟨x, y, rfl, hm⟩
    obtain ⟨a, b, c, post, rfl, hs⟩ := matchesSemverAt_iff.1 hm
    exact ⟨x, a, b, c, post, by simp, hs⟩
  · rintro ⟨pre, a, b, c, post, rfl, hs⟩
    refine ⟨pre, chars "tag: " ++ a ++ chars "." ++ b ++ chars "." ++ c ++ post,
      by simp, ?_⟩
    exact matchesSemverAt_iff.2 ⟨a, b, c, post, by simp, hs⟩

/-! ## Claim C4: characterisation of the stop-point test -/

theorem isStopPoint_cLR (m d : List Char) :
    isStopPoint cLR m d = (pyIn (chars "tag") d && semverSearch d) := by
  have h : cLR.stop_point = LAST_RELEASE := by decide
  cases hp : pyIn (chars "tag") d <;>
    simp [isStopPoint, h, hp, show ¬(LAST_RELEASE = LAST_PULL_REQUEST) by decide]

theorem isStopPoint_cLPR (m d : List Char) :
    isStopPoint cLPR m d = pyIn PULL_REQUEST_INDICATOR m := by
  have h1 : ¬(cLPR.stop_point = LAST_RELEASE) := by decide
  have h2 : cLPR.stop_point = LAST_PULL_REQUEST := by decide
  simp [isStopPoint, h1, h2, show ¬(LAST_PULL_REQUEST = LAST_RELEASE) by decide]

/-- C4: with stop point `LAST_RELEASE` a commit is a stop point iff its
decoration contains `"tag"` and matches the numeric semantic-version tag
pattern `tag: <major>.<minor>.<patch>`; with stop point `LAST_PULL_REQUEST`
iff its header contains `"Merge pull request #"`. -/
theorem c4_stop_point_characterisation (message decoration : List Char) :
    (isStopPoint cLR message decoration = true ↔
      pyIn (chars "tag") decoration = true ∧ SemverTagMatch decoration) ∧
    (isStopPoint cLPR message decoration = true ↔
      pyIn PULL_REQUEST_INDICATOR message = true) := by
  constructor
  · rw [isStopPoint_cLR, Bool.and_eq_true, semverSearch_iff]
  · rw [isStopPoint_cLPR]

/-! ## Claim C5: splitting a header on its first colon -/

theorem pySplit_colon_parts {message : List Char}
    (h : pyIn (chars ":") message = true) :
    (pySplit (chars ":") message).headD [] =
        message.takeWhile (fun c => !(c = ':')) ∧
    pyJoin (chars ":") ((pySplit (chars ":") message).drop 1) =
      (message.dropWhile (fun c => !(c = ':'))).drop 1 := by
  have hc : chars ":" = [':'] := rfl
  rw [hc] at h ⊢
  rw [pySplit_eq (by simp) message, firstSplit_singleton h]
  exact ⟨rfl, pyJoin_pySplit (by simp) _⟩

/-- C5: for every header containing a colon (in a well-formed, non-stop-point
line), the parser records the trimmed text before the first colon as the
code and the trimmed text after the first colon — rejoined with colons, so
inner colons survive — as the message; in particular
`"OPS: My message: something"` yields code `"OPS"` and message
`"My message: something"`. -/
theorem c5_colon_split :
    (∀ (c : ReleaseNoteCompiler) (line : List Char) (rest : List (List Char))
        (message decoration : List Char),
      pySplit (chars "|") line = [message, decoration] →
      isStopPoint c message decoration = false →
      pyIn (chars ":") message = true →
      parseLines c (line :: rest) =
        ((pyStripWS (message.takeWhile (fun ch => !(ch = ':'))),
          pyStripWS ((message.dropWhile (fun ch => !(ch = ':'))).drop 1),
          pyStripWS decoration) :: (parseLines c rest).1,
         (parseLines c rest).2)) ∧
    parseLines cLR [chars "OPS: My message: something|"] =
      ([(chars "OPS", chars "My message: something", [])], []) := by
  constructor
  · intro c line rest message decoration hsplit hstop hcolon
    obtain ⟨h1, h2⟩ := pySplit_colon_parts hcolon
    simp only [parseLines, hsplit, hstop, hcolon, h1, h2]
    simp
  · decide

/-- Witness for C5 at a concrete line. -/
theorem c5_colon_split_witness :
    parseLines cLR [chars "OPS: My message: something|"] =
      ((pyStripWS ((chars "OPS: My message: something").takeWhile
          (fun ch => !(ch = ':'))),
        pyStripWS (((chars "OPS: My message: something").dropWhile
          (fun ch => !(ch = ':'))).drop 1),
        pyStripWS ([] : List Char)) :: (parseLines cLR []).1,
       (parseLines cLR []).2) :=
  c5_colon_split.1 cLR (chars "OPS: My message: something|") []
    (chars "OPS: My message: something") [] (by decide) (by decide) (by decide)

/-! ## Claim C3: the stop point halts parsing -/

/-- C3: the first well-formed line satisfying the stop-point test halts the
parse — that commit and all later lines are excluded from both outputs; in
the three-line example with stop point `LAST_RELEASE`, the `REF` and `MRG`
commits are parsed and the `CHO` commit (decorated `tag: 0.0.3`) is
excluded. -/
theorem c3_stop_point_halts :
    (∀ (c : ReleaseNoteCompiler) (pre : List (List Char)) (line : List Char)
        (post : List (List Char)) (message decoration : List Char),
      (∀ l ∈ pre, lineIsStop c l = false) →
      pySplit (chars "|") line = [message, decoration] →
      isStopPoint c message decoration = true →
      parseLines c (pre ++ line :: post) = parseLines c pre) ∧
    parseCommitMessages cLR exLogC3 =
      ([(chars "REF", chars "Merge commit message checker modules",
         chars "(tag-less decoration)"),
        (chars "MRG", chars "Merge pull request #3 from org/feature-x", [])],
       []) := by
  constructor
  · intro c pre
    induction pre with
    | nil =>
      intro line post message decoration _ hsplit hstop
      rw [List.nil_append]
      simp only [parseLines, hsplit, hstop]
      simp [parseLines]
    | cons l pre ih =>
      intro line post message decoration hpre hsplit hstop
      have hl : lineIsStop c l = false := hpre l (by simp)
      have ihx : parseLines c (pre ++ line :: post) = parseLines c pre :=
        ih line post message decoration (fun x hx2 => hpre x (by simp [hx2]))
          hsplit hstop
      rw [List.cons_append]
      rcases hx : pySplit (chars "|") l with _ | ⟨m, _ | ⟨d, _ | ⟨e, tl⟩⟩⟩
      · simp only [parseLines, hx]; exact ihx
      · simp only [parseLines, hx]; exact ihx
      · simp only [lineIsStop, hx] at hl
        simp only [parseLines, hx, hl, ihx]
      · simp only [parseLines, hx]; exact ihx
  · decide

/-- Witness for C3 at a concrete split log. -/
theorem c3_stop_point_halts_witness :
    parseLines cLR
        ([chars "REF: Merge commit message checker modules|(tag-less decoration)"] ++
          chars "CHO: Remove hook installation|(tag: 0.0.3, main)" ::
            [chars "ENH: Later commit|"]) =
      parseLines cLR
        [chars "REF: Merge commit message checker modules|(tag-less decoration)"] :=
  c3_stop_point_halts.1 cLR
    [chars "REF: Merge commit message checker modules|(tag-less decoration)"]
    (chars "CHO: Remove hook installation|(tag: 0.0.3, main)")
    [chars "ENH: Later commit|"]
    (chars "CHO: Remove hook installation") (chars "(tag: 0.0.3, main)")
    (by decide) (by decide) (by decide)

/-! ## Claim C2: the skip sentinel freezes the previous notes -/

/-- C2: whenever the previous notes contain the skip sentinel, the compiler
returns them byte-for-byte unchanged, for every commit log; the freshly
rendered notes are discarded (no categorisation error can even surface). -/
theorem c2_skip_returns_previous (c : ReleaseNoteCompiler) (log prev : List Char)
    (hp : c.previous_notes = some prev) (hskip : pyIn sSKIP prev = true) :
    compileReleaseNotes c log = some prev := by
  have hne : prev ≠ [] := ne_nil_of_pyIn sSKIP_ne_nil hskip
  unfold compileReleaseNotes
  rw [hp]
  simp [truthy_some hne, hskip]

/-- Witness for C2 at a concrete compiler and log. -/
theorem c2_skip_returns_previous_witness :
    compileReleaseNotes cSkip (chars "FIX: Fix a bug|") = some sSKIP :=
  c2_skip_returns_previous cSkip (chars "FIX: Fix a bug|") sSKIP rfl (by decide)

/-! ## Claim C6: fail-fast validation of the stop point -/

/-- C6: construction fails (raises `ValueError`, i.e. returns `none`, before
any log is consulted) exactly when the uppercased stop point is neither
`LAST_RELEASE` nor `LAST_PULL_REQUEST`; otherwise it succeeds and stores
the uppercase-normalised value. -/
theorem c6_construction_validation (s : List Char) (pn : Option (List Char))
    (hd sym : List Char) (m : Option (List (List Char × List Char))) :
    (¬(pyUpper s = LAST_RELEASE ∨ pyUpper s = LAST_PULL_REQUEST) →
      initCompiler s pn hd sym m = none) ∧
    ((pyUpper s = LAST_RELEASE ∨ pyUpper s = LAST_PULL_REQUEST) →
      ∃ cc, initCompiler s pn hd sym m = some cc ∧ cc.stop_point = pyUpper s) := by
  constructor
  · intro h
    rw [not_or] at h
    simp [initCompiler, h.1, h.2]
  · intro h
    have hcond : ¬(pyUpper s ≠ LAST_RELEASE ∧ pyUpper s ≠ LAST_PULL_REQUEST) := by
      rcases h with h | h <;> simp [h]
    exact ⟨{ stop_point := pyUpper s, previous_notes := pn, header := hd,
             list_item_symbol := sym,
             commit_codes_to_headings_mapping := pyOrMapping m },
           by simp only [initCompiler, if_neg hcond], rfl⟩

/-- Witness for C6: a lowercase valid stop point is accepted and normalised,
and an invalid one is rejected. -/
theorem c6_construction_validation_witness :
    (∃ cc, initCompiler (chars "last_release") none [] [] none = some cc ∧
      cc.stop_point = pyUpper (chars "last_release")) ∧
    initCompiler (chars "BLAH") none [] [] none = none :=
  ⟨(c6_construction_validation (chars "last_release") none [] [] none).2 (by left; decide),
   (c6_construction_validation (chars "BLAH") none [] [] none).1 (by decide)⟩

/-! ## Dict lemmas for the categoriser -/

theorem alookup_map_update {α : Type} (d : List (List Char × α))
    (k : List Char) (v : α) (k' : List Char) :
    alookup (List.map (fun p => if p.1 = k then (k, v) else p) d) k' =
      if k' = k then Option.map (fun _ => v) (alookup d k) else alookup d k' := by
  induction d with
  | nil => by_cases h : k' = k <;> simp [alookup, h]
  | cons p t ih =>
    obtain ⟨a, b⟩ := p
    have hmap : List.map (fun p => if p.1 = k then (k, v) else p) ((a, b) :: t) =
        (if a = k then ((k, v) : List Char × α) else (a, b)) ::
          List.map (fun p => if p.1 = k then (k, v) else p) t := by simp
    rw [hmap]
    by_cases ha : a = k
    · subst ha
      rw [if_pos rfl]
      by_cases hk : k' = a
      · subst hk
        simp [alookup, ih]
      · have hk2 : ¬(a = k') := fun h => hk h.symm
        simp [alookup, hk, hk2, ih]
    · rw [if_neg ha]
      by_cases hak : a = k'
      · have hk : ¬(k' = k) := fun h => ha (hak.trans h)
        simp [alookup, hak, hk]
      · simp [alookup, hak, ih, ha]

theorem alookup_append_last {α : Type} (d : List (List Char × α))
    (k : List Char) (v : α) (k' : List Char) :
    alookup (d ++ [(k, v)]) k' =
      match alookup d k' with
      | some w => some w
      | none => if k = k' then some v else none := by
  induction d with
  | nil => simp [alookup]
  | cons p t ih =>
    obtain ⟨a, b⟩ := p
    by_cases hk : a = k'
    · simp [alookup, hk]
    · simp only [List.cons_append]
      rw [alookup, if_neg hk, ih, alookup, if_neg hk]

/-- Python dict assignment: the assigned key reads back the new value,
every other key is untouched. -/
theorem alookup_pyDictSet {α : Type} (d : List (List Char × α))
    (k : List Char) (v : α) (k' : List Char) :
    alookup (pyDictSet d k v) k' = if k' = k then some v else alookup d k' := by
  rw [pyDictSet]
  by_cases hk : (alookup d k).isSome = true
  · rw [if_pos hk, alookup_map_update]
    by_cases h : k' = k
    · obtain ⟨w, hw⟩ := Option.isSome_iff_exists.1 hk
      simp [h, hw]
    · simp [h]
  · rw [if_neg hk, alookup_append_last]
    by_cases h : k' = k
    · subst h
      have : alookup d k' = none := Option.not_isSome_iff_eq_none.1 hk
      simp [this]
    · cases hd : alookup d k' <;> simp [Ne.symm h, h]

theorem pyDictSet_keys_of_mem {α : Type} {d : List (List Char × α)}
    {k : List Char} (v : α) (h : (alookup d k).isSome = true) :
    (pyDictSet d k v).map Prod.fst = d.map Prod.fst := by
  rw [pyDictSet, if_pos h, List.map_map]
  apply List.map_congr_left
  intro p _
  by_cases hp : p.1 = k <;> simp [hp]

theorem pyDictSet_keys_of_not_mem {α : Type} {d : List (List Char × α)}
    {k : List Char} (v : α) (h : ¬(alookup d k).isSome = true) :
    (pyDictSet d k v).map Prod.fst = d.map Prod.fst ++ [k] := by
  rw [pyDictSet, if_neg h, List.map_append]
  rfl

theorem alookup_isSome_iff_mem {α : Type} (d : List (List Char × α))
    (k : List Char) : (alookup d k).isSome = true ↔ k ∈ d.map Prod.fst := by
  induction d with
  | nil => simp [alookup]
  | cons p t ih =>
    obtain ⟨a, b⟩ := p
    by_cases hk : a = k
    · rw [alookup, if_pos hk]
      simp only [Option.isSome_some, List.map_cons, List.mem_cons]
      exact ⟨fun _ => Or.inl hk.symm, fun _ => trivial⟩
    · rw [alookup, if_neg hk]
      simp only [List.map_cons, List.mem_cons]
      rw [ih]
      constructor
      · exact Or.inr
      · rintro (h | h)
        · exact absurd h.symm hk
        · exact h

theorem mem_keys_pyDictSet_self {α : Type} (d : List (List Char × α))
    (k : List Char) (v : α) : k ∈ (pyDictSet d k v).map Prod.fst := by
  rw [← alookup_isSome_iff_mem, alookup_pyDictSet]
  simp

theorem mem_keys_pyDictSet_of_mem {α : Type} {d : List (List Char × α)}
    {h : List Char} (k : List Char) (v : α) (hm : h ∈ d.map Prod.fst) :
    h ∈ (pyDictSet d k v).map Prod.fst := by
  by_cases hk : (alookup d k).isSome = true
  · rw [pyDictSet_keys_of_mem v hk]; exact hm
  · rw [pyDictSet_keys_of_not_mem v hk]; exact List.mem_append_left _ hm

/-- A successful lookup returns one of the dict's values. -/
theorem alookup_mem_values {α : Type} {d : List (List Char × α)}
    {k : List Char} {v : α} (h : alookup d k = some v) : v ∈ d.map Prod.snd := by
  induction d with
  | nil => simp [alookup] at h
  | cons p t ih =>
    obtain ⟨a, b⟩ := p
    rw [alookup] at h
    by_cases hk : a = k
    · rw [if_pos hk, Option.some_inj] at h
      rw [List.map_cons]
      exact List.mem_cons.2 (Or.inl h.symm)
    · rw [if_neg hk] at h
      rw [List.map_cons]
      exact List.mem_cons.2 (Or.inr (ih h))

/-- Every heading that occurs as a mapping value gets a bucket in the
initial release-notes dict. -/
theorem mem_keys_initial (mapping : List (List Char × List Char))
    (h : List Char) (hm : h ∈ mapping.map Prod.snd) :
    h ∈ (initialReleaseNotesDict mapping).map Prod.fst := by
  have H : ∀ (l : List (List Char × List Char)) (d0 : List (List Char × List (List Char))),
      (h ∈ d0.map Prod.fst ∨ h ∈ l.map Prod.snd) →
      h ∈ (l.foldl (fun d p => pyDictSet d p.2 []) d0).map Prod.fst := by
    intro l
    induction l with
    | nil =>
      intro d0 hd
      rcases hd with hd | hd
      · exact hd
      · simp at hd
    | cons p t ih =>
      intro d0 hd
      rw [List.foldl_cons]
      rcases hd with hd | hd
      · exact ih _ (Or.inl (mem_keys_pyDictSet_of_mem p.2 [] hd))
      · rw [List.map_cons, List.mem_cons] at hd
        rcases hd with hd | hd
        · exact ih _ (Or.inl (by rw [hd]; exact mem_keys_pyDictSet_self d0 p.2 []))
        · exact ih _ (Or.inr hd)
  exact H mapping [] (Or.inr hm)

/-! ## Behaviour of the categorisation loop -/

theorem otherCase_keys {d d2 : List (List Char × List (List Char))}
    {message : List Char}
    (h : (alookup d sOTHER).map (fun v => pyDictSet d sOTHER (v ++ [message])) =
      some d2) : d2.map Prod.fst = d.map Prod.fst := by
  cases ho : alookup d sOTHER with
  | none => rw [ho] at h; exact absurd h (by simp)
  | some v =>
    rw [ho] at h
    simp only [Option.map_some'] at h
    injection h with h
    rw [← h]
    exact pyDictSet_keys_of_mem _ (by simp [ho])

/-- A successful categorisation step never changes the bucket structure. -/
theorem catStep_keys {mapping : List (List Char × List Char)}
    {d d2 : List (List Char × List (List Char))} {code message : List Char}
    (h : catStep mapping d code message = some d2) :
    d2.map Prod.fst = d.map Prod.fst := by
  simp only [catStep] at h
  cases hm : alookup mapping code with
  | none =>
    rw [hm] at h
    simp only [Option.none_bind, Option.none_orElse] at h
    exact otherCase_keys h
  | some hh =>
    rw [hm] at h
    simp only [Option.some_bind] at h
    cases hd : alookup d hh with
    | none =>
      rw [hd] at h
      simp only [Option.map_none', Option.none_orElse] at h
      exact otherCase_keys h
    | some v =>
      rw [hd] at h
      simp only [Option.map_some', Option.some_orElse] at h
      injection h with h
      rw [← h]
      exact pyDictSet_keys_of_mem _ (by simp [hd])

theorem catLoop_keys {mapping : List (List Char × List Char)} :
    ∀ {parsed : List Commit} {d d2 : List (List Char × List (List Char))},
    catLoop mapping d parsed = some d2 → d2.map Prod.fst = d.map Prod.fst := by
  intro parsed
  induction parsed with
  | nil =>
    intro d d2 h
    rw [catLoop] at h
    injection h with h
    rw [h]
  | cons pc rest ih =>
    intro d d2 h
    obtain ⟨code, message, dec⟩ := pc
    rw [catLoop] at h
    cases hs : catStep mapping d code message with
    | none => rw [hs] at h; exact absurd h (by simp)
    | some dmid =>
      rw [hs] at h
      have h2 : catLoop mapping dmid rest = some d2 := h
      rw [ih h2, catStep_keys hs]

/-- Under the invariant that the `### Other` bucket and one bucket per
mapping value exist, a categorisation step cannot fail. -/
theorem catStep_some_of_inv {mapping : List (List Char × List Char)}
    {d : List (List Char × List (List Char))} (code message : List Char)
    (hoth : (alookup d sOTHER).isSome = true)
    (hvals : ∀ h2, h2 ∈ mapping.map Prod.snd → (alookup d h2).isSome = true) :
    (catStep mapping d code message).isSome = true := by
  simp only [catStep]
  obtain ⟨w, hw⟩ := Option.isSome_iff_exists.1 hoth
  cases hm : alookup mapping code with
  | none => simp [hw]
  | some hh =>
    obtain ⟨v, hv⟩ := Option.isSome_iff_exists.1
      (hvals hh (alookup_mem_values hm))
    simp [hv]

theorem catLoop_isSome {mapping : List (List Char × List Char)} :
    ∀ (parsed : List Commit) (d : List (List Char × List (List Char))),
    (alookup d sOTHER).isSome = true →
    (∀ h2, h2 ∈ mapping.map Prod.snd → (alookup d h2).isSome = true) →
    (catLoop mapping d parsed).isSome = true := by
  intro parsed
  induction parsed with
  | nil => intro d _ _; rw [catLoop]; rfl
  | cons pc rest ih =>
    intro d hoth hvals
    obtain ⟨code, message, dec⟩ := pc
    rw [catLoop]
    cases hs : catStep mapping d code message with
    | none =>
      have hsome := catStep_some_of_inv code message hoth hvals
      rw [hs] at hsome
      exact absurd hsome (by simp)
    | some dmid =>
      have hk := catStep_keys hs
      show (catLoop mapping dmid rest).isSome = true
      refine ih dmid ?_ ?_
      · rw [alookup_isSome_iff_mem, hk, ← alookup_isSome_iff_mem]
        exact hoth
      · intro h2 hm2
        rw [alookup_isSome_iff_mem, hk, ← alookup_isSome_iff_mem]
        exact hvals h2 hm2

/-! ## Claim C7: unrecognised commit codes and the `### Other` bucket -/

/-- C7 counterexample: with an overriding mapping that designates no code
for `### Other`, a single commit with an unrecognised code makes the
categoriser raise an uncaught `KeyError` (modelled as `none`) — the claimed
on-demand creation of the `### Other` bucket does not happen, and an
unrecognised code IS an error here. -/
theorem c7_counterexample :
    categoriseCommitMessages cNoOther [(chars "ZZZ", chars "m", [])] [] =
      none := by decide

/-- C7 (amended): a commit whose code is not in the mapping has its message
appended to the `### Other` bucket provided that bucket exists; it exists
whenever the mapping maps some code to `### Other` — as the default mapping
does, so with the default mapping categorisation never fails — but it is
not created on demand: an override without an `### Other` heading makes an
unrecognised code an uncaught `KeyError`. -/
theorem c7_other_bucket_amended :
    (∀ (mapping : List (List Char × List Char))
        (d : List (List Char × List (List Char))) (code message : List Char)
        (v : List (List Char)),
      alookup mapping code = none → alookup d sOTHER = some v →
      catStep mapping d code message =
        some (pyDictSet d sOTHER (v ++ [message]))) ∧
    (∀ (parsed : List Commit) (unparsed : List (List Char)),
      (categoriseCommitMessages cLR parsed unparsed).isSome = true) := by
  constructor
  · intro mapping d code message v hm hv
    simp only [catStep, hm, Option.none_bind, Option.none_orElse, hv,
      Option.map_some']
    rfl
  · intro parsed unparsed
    simp only [categoriseCommitMessages]
    cases hl : catLoop cLR.commit_codes_to_headings_mapping
        (initialReleaseNotesDict cLR.commit_codes_to_headings_mapping) parsed with
    | none =>
      have hsome := catLoop_isSome parsed
        (initialReleaseNotesDict cLR.commit_codes_to_headings_mapping)
        (by decide)
        (fun h2 hm2 => (alookup_isSome_iff_mem _ _).2 (mem_keys_initial _ h2 hm2))
      rw [hl] at hsome
      exact absurd hsome (by simp)
    | some d0 => simp

/-- Witness for C7 at a concrete mapping, dict and commit. -/
theorem c7_other_bucket_amended_witness :
    catStep [(chars "FEA", chars "### F")] [(sOTHER, [])] (chars "ZZZ")
        (chars "m") =
      some (pyDictSet [(sOTHER, [])] sOTHER ([] ++ [chars "m"])) ∧
    (categoriseCommitMessages cLR [(chars "ZZZ", chars "m", [])] []).isSome =
      true :=
  ⟨c7_other_bucket_amended.1 [(chars "FEA", chars "### F")] [(sOTHER, [])]
      (chars "ZZZ") (chars "m") [] (by decide) (by decide),
   c7_other_bucket_amended.2 [(chars "ZZZ", chars "m", [])] []⟩

/-! ## Claim C8: order of the sections -/

/-- C8 counterexample: with the default mapping (and empty inputs) the
categorised sections put `### Other` at its declared position — index 7,
followed by the declared headings `### Reversions` and `### Chores` — so
`### Other` is not a trailing section placed after every declared heading,
contradicting the claim that the output is the mapping's declared order
followed by `### Other` and then `### Uncategorised!`. -/
theorem c8_counterexample :
    ((categoriseCommitMessages cLR [] []).getD []).map Prod.fst =
      [chars "### New features", chars "### Enhancements", chars "### Fixes",
       chars "### Operations", chars "### Dependencies",
       chars "### Refactoring", chars "### Testing", chars "### Other",
       chars "### Reversions", chars "### Chores",
       chars "### Uncategorised!"] ∧
    (((categoriseCommitMessages cLR [] []).getD []).map Prod.fst).drop 7 ≠
      [sOTHER, sUNCAT] ∧
    (((categoriseCommitMessages cLR [] []).getD []).map Prod.fst).drop 7 =
      [sOTHER, chars "### Reversions", chars "### Chores", sUNCAT] :=
  ⟨by decide, by decide, by decide⟩

/-- C8 (amended): the categorised sections are exactly the buckets of the
initial dict — the distinct headings in the mapping's declared
(first-occurrence) order, `### Other` included at its declared position —
with `### Uncategorised!` appended as the one trailing section when the
mapping does not already declare it. -/
theorem c8_section_order_amended (c : ReleaseNoteCompiler)
    (parsed : List Commit) (unparsed : List (List Char))
    (d : List (List Char × List (List Char)))
    (h : categoriseCommitMessages c parsed unparsed = some d) :
    d.map Prod.fst =
      (initialReleaseNotesDict c.commit_codes_to_headings_mapping).map
          Prod.fst ++
        (if sUNCAT ∈ (initialReleaseNotesDict
            c.commit_codes_to_headings_mapping).map Prod.fst
         then [] else [sUNCAT]) := by
  simp only [categoriseCommitMessages] at h
  cases hl : catLoop c.commit_codes_to_headings_mapping
      (initialReleaseNotesDict c.commit_codes_to_headings_mapping) parsed with
  | none => rw [hl] at h; exact absurd h (by simp)
  | some d0 =>
    rw [hl] at h
    simp only [Option.map_some'] at h
    injection h with h
    rw [← h]
    have hk := catLoop_keys hl
    by_cases hu : sUNCAT ∈ (initialReleaseNotesDict
        c.commit_codes_to_headings_mapping).map Prod.fst
    · rw [if_pos hu, List.append_nil,
        pyDictSet_keys_of_mem _ (by rw [alookup_isSome_iff_mem, hk]; exact hu)]
      exact hk
    · rw [if_neg hu,
        pyDictSet_keys_of_not_mem _
          (by rw [alookup_isSome_iff_mem, hk]; exact hu), hk]

/-- Witness for C8 at a concrete categorisation. -/
theorem c8_section_order_amended_witness :
    ([(chars "### X", ([] : List (List Char))), (sUNCAT, [])]).map Prod.fst =
      (initialReleaseNotesDict cNoOther.commit_codes_to_headings_mapping).map
          Prod.fst ++
        (if sUNCAT ∈ (initialReleaseNotesDict
            cNoOther.commit_codes_to_headings_mapping).map Prod.fst
         then [] else [sUNCAT]) :=
  c8_section_order_amended cNoOther [] []
    [(chars "### X", []), (sUNCAT, [])] (by decide)

/-! ## Claim C10: an empty mapping override falls back to the default -/

/-- C10: constructing with an empty mapping override silently falls back to
the built-in default mapping, while any non-empty override replaces the
default wholesale. -/
theorem c10_empty_mapping_default (s : List Char) (pn : Option (List Char))
    (hd sym : List Char)
    (hvalid : pyUpper s = LAST_RELEASE ∨ pyUpper s = LAST_PULL_REQUEST) :
    (initCompiler s pn hd sym (some [])).map
        (fun cc => cc.commit_codes_to_headings_mapping) =
      some COMMIT_CODES_TO_HEADINGS_MAPPING ∧
    ∀ m : List (List Char × List Char), m ≠ [] →
      (initCompiler s pn hd sym (some m)).map
          (fun cc => cc.commit_codes_to_headings_mapping) = some m := by
  have hcond : ¬(pyUpper s ≠ LAST_RELEASE ∧ pyUpper s ≠ LAST_PULL_REQUEST) := by
    rcases hvalid with h | h <;> simp [h]
  constructor
  · simp [initCompiler, if_neg hcond, pyOrMapping]
  · intro m hm
    simp [initCompiler, if_neg hcond, pyOrMapping, List.isEmpty_iff, hm]

/-- Witness for C10 at concrete inputs. -/
theorem c10_empty_mapping_default_witness :
    (initCompiler (chars "LAST_RELEASE") none [] [] (some [])).map
        (fun cc => cc.commit_codes_to_headings_mapping) =
      some COMMIT_CODES_TO_HEADINGS_MAPPING ∧
    (initCompiler (chars "LAST_RELEASE") none [] []
        (some [(chars "FEA", chars "### X")])).map
        (fun cc => cc.commit_codes_to_headings_mapping) =
      some [(chars "FEA", chars "### X")] := by
  have h := c10_empty_mapping_default (chars "LAST_RELEASE") none [] [] (by left; decide)
  exact ⟨h.1, h.2 [(chars "FEA", chars "### X")] (by decide)⟩

end ReleaseNotes
